import Mathlib

/-!
Verification of `build_page.py`, a build-time static-site generator that
normalizes a product list, injects an affiliate tag into outbound URLs,
optionally caches remote images, and renders an HTML page plus a JSON
snapshot.  Python strings are modelled as lists of Unicode code points
(`PyStr := List Nat`); the relevant pieces of the Python standard library
(`str` methods, `urllib.parse`, `json.dumps`) are modelled explicitly.
All definitions are executable so that concrete runs can be settled by
`decide`.
-/

namespace BuildPage

/-- Python strings modelled as lists of Unicode code points. -/
abbrev PyStr := List Nat

/-- Embed a Lean string literal as a `PyStr`. -/
def pyLit (s : String) : PyStr := s.data.map Char.toNat

/-- The set of code points stripped by Python `str.strip()` (str whitespace). -/
def pyIsSpace (c : Nat) : Bool :=
  decide ((9 ≤ c ∧ c ≤ 13) ∨ (28 ≤ c ∧ c ≤ 31) ∨ c = 32 ∨ c = 0x85 ∨ c = 0xA0 ∨
    c = 0x1680 ∨ (0x2000 ≤ c ∧ c ≤ 0x200A) ∨ c = 0x2028 ∨ c = 0x2029 ∨
    c = 0x202F ∨ c = 0x205F ∨ c = 0x3000)

/-- Python `s.strip()`: remove leading and trailing whitespace. -/
def pyStrip (s : PyStr) : PyStr :=
  ((s.dropWhile pyIsSpace).reverse.dropWhile pyIsSpace).reverse

/-- Python `x or d` for an optional string field read with `dict.get`:
`None` and the empty string are falsy and yield the default. -/
def pyOr (o : Option PyStr) (d : PyStr) : PyStr :=
  match o with
  | Option.none => d
  | Option.some s => if s = [] then d else s

/-- Python `str.lower()`, restricted to the ASCII case mappings (the inputs
this development evaluates contain no non-ASCII cased letters, whose special
mappings are not modelled). -/
def pyLower (s : PyStr) : PyStr :=
  s.map (fun c => if 65 ≤ c ∧ c ≤ 90 then c + 32 else c)

/-- One step bound for the fuelled `str.replace` loop. -/
def pyReplaceGo : Nat → PyStr → PyStr → PyStr → PyStr
  | 0, s, _, _ => s
  | _ + 1, [], _, _ => []
  | fuel + 1, a :: s, old, new =>
    if old.isPrefixOf (a :: s) then
      new ++ pyReplaceGo fuel ((a :: s).drop old.length) old new
    else
      a :: pyReplaceGo fuel s old new

/-- Python `s.replace(old, new)` for a non-empty `old` (every call in the
program uses a non-empty pattern; we return `s` unchanged for `old = []`). -/
def pyReplace (s old new : PyStr) : PyStr :=
  if old = [] then s else pyReplaceGo s.length s old new

/-- Split at the first occurrence of code point `c`; `none` when absent. -/
def splitOnce (c : Nat) : PyStr → Option (PyStr × PyStr)
  | [] => Option.none
  | a :: s =>
    if a = c then Option.some ([], s)
    else match splitOnce c s with
      | Option.none => Option.none
      | Option.some (l, r) => Option.some (a :: l, r)

/-- Fuelled worker for `pySplit`. -/
def pySplitGo (c : Nat) : Nat → PyStr → List PyStr
  | 0, s => [s]
  | fuel + 1, s =>
    match splitOnce c s with
    | Option.none => [s]
    | Option.some (l, r) => l :: pySplitGo c fuel r

/-- Python `s.split(sep)` for a single-character separator. -/
def pySplit (c : Nat) (s : PyStr) : List PyStr := pySplitGo c s.length s

/-- Boolean prefix test. -/
def startsWithB (p s : PyStr) : Bool := p.isPrefixOf s

/-- Boolean suffix test. -/
def endsWithB (p s : PyStr) : Bool := p.reverse.isPrefixOf s.reverse

/-- Boolean substring test: does `p` occur contiguously inside `s`? -/
def containsSub (p : PyStr) : PyStr → Bool
  | [] => p.isPrefixOf []
  | a :: s => p.isPrefixOf (a :: s) || containsSub p s

/-- Number of occurrences (including overlapping ones) of `p` inside `s`. -/
def countSub (p : PyStr) : PyStr → Nat
  | [] => if p.isPrefixOf [] then 1 else 0
  | a :: s => (if p.isPrefixOf (a :: s) then 1 else 0) + countSub p s

/-- Number of occurrences of code point `c` in `s`. -/
def countCh (c : Nat) (s : PyStr) : Nat := s.countP (fun a => a = c)

/-- HTML-escape of the five special characters, exactly as `esc` in
`build_page.py`: sequential `str.replace` calls, ampersand first. -/
def esc (s : PyStr) : PyStr :=
  pyReplace (pyReplace (pyReplace (pyReplace (pyReplace s
    (pyLit "&") (pyLit "&amp;"))
    (pyLit "<") (pyLit "&lt;"))
    (pyLit ">") (pyLit "&gt;"))
    (pyLit "\"") (pyLit "&quot;"))
    (pyLit "\x27") (pyLit "&#39;")

/-- The `best_for` field of a raw product record: it is either absent/None,
a string, a list of strings, or some other (non-`str`, non-`list`) value.
The configuration file is JSON whose tag lists hold strings, so list
elements are modelled as strings (`str(x)` is then the identity). -/
inductive BFVal where
  | vNone : BFVal
  | vStr : PyStr → BFVal
  | vList : List PyStr → BFVal
  | vOther : BFVal
deriving DecidableEq, Repr

/-- A raw product record: an arbitrary mapping with optional string fields
plus the `best_for` field. -/
structure RawRecord where
  amazon_asin : Option PyStr := Option.none
  product_name : Option PyStr := Option.none
  description : Option PyStr := Option.none
  image_url : Option PyStr := Option.none
  amazon_url : Option PyStr := Option.none
  best_for : BFVal := BFVal.vNone
deriving DecidableEq, Repr

/-- A normalized product, as emitted by `normalize_products`. -/
structure NormalizedProduct where
  asin : PyStr
  name : PyStr
  description : PyStr
  image_url : PyStr
  amazon_url : PyStr
  best_for : List PyStr
deriving DecidableEq, Repr

/-- The comprehension `[str(x).strip() for x in best_for if str(x).strip()][:2]`. -/
def bestForComp (xs : List PyStr) : List PyStr :=
  ((xs.map pyStrip).filter (fun x => x ≠ [])).take 2

/-- The `best_for` extraction of `normalize_products`:
`best_for = it.get("best_for") or []`, a bare string is wrapped into a
one-element list, a non-list value is replaced by `[]`, then the
comprehension keeps the non-empty trimmed elements and truncates to 2. -/
def computeBestFor : BFVal → List PyStr
  | BFVal.vNone => bestForComp []
  | BFVal.vStr s => if s = [] then bestForComp [] else bestForComp [s]
  | BFVal.vList xs => bestForComp xs
  | BFVal.vOther => bestForComp []

/-- The trimmed identifier `(it.get("amazon_asin") or "").strip()`. -/
def trimmedAsin (it : RawRecord) : PyStr := pyStrip (pyOr it.amazon_asin [])

/-- The `name` field computation: `(... or "").strip() or "Product"`. -/
def nameField (o : Option PyStr) : PyStr :=
  if pyStrip (pyOr o []) = [] then pyLit "Product" else pyStrip (pyOr o [])

/-- Build the normalized record emitted for input record `it` with
identifier `asin` (already trimmed and known non-empty). -/
def emitRecord (it : RawRecord) (asin : PyStr) : NormalizedProduct :=
  { asin := asin
    name := nameField it.product_name
    description := pyStrip (pyOr it.description [])
    image_url := pyStrip (pyOr it.image_url [])
    amazon_url := pyStrip (pyOr it.amazon_url (pyLit "https://www.amazon.com/dp/" ++ asin))
    best_for := computeBestFor it.best_for }

/-- Worker for `normalize_products`: `seen` is the set of already-emitted
identifiers (the Python `set` is modelled as a list used for membership). -/
def normalizeGo (seen : List PyStr) : List RawRecord → List NormalizedProduct
  | [] => []
  | it :: rest =>
    let asin := trimmedAsin it
    if asin = [] ∨ asin ∈ seen then normalizeGo seen rest
    else emitRecord it asin :: normalizeGo (asin :: seen) rest

/-- `normalize_products` from `build_page.py`. -/
def normalize_products (items : List RawRecord) : List NormalizedProduct :=
  normalizeGo [] items

/-- First-occurrence deduplication relative to an already-seen set: the
reference description of which identifiers `normalize_products` emits. -/
def firstOccFrom (seen : List PyStr) : List PyStr → List PyStr
  | [] => []
  | a :: l => if a ∈ seen then firstOccFrom seen l else a :: firstOccFrom (a :: seen) l

/-- First-occurrence deduplication of a list of identifiers. -/
def firstOcc (l : List PyStr) : List PyStr := firstOccFrom [] l

/-!
### Model of `urllib.parse` (CPython 3.11.6)

The four functions used by `with_affiliate_tag` — `urlparse`, `parse_qsl`,
`urlencode` and `urlunparse` — are modelled byte for byte after the CPython
3.11.6 sources, including the WHATWG control-character stripping in
`urlsplit`, the `uses_params` and `uses_netloc` scheme tables, percent
encoding and decoding, and UTF-8 encoding (strict on encode, replacement
characters on decode).  Two raise-paths of `urlsplit` are not modelled and
the model simply succeeds there: the NFKC check of `_checknetloc` and the
IPv6-address validation of `_check_bracketed_host` (both depend on the
`unicodedata`/`ipaddress` modules).  This only makes the model accept a few
inputs on which CPython raises; on every input where CPython returns, the
model returns the same string.
-/

/-- ASCII letter test (`str.isascii() and str.isalpha()` on one character). -/
def isAsciiAlpha (c : Nat) : Bool := decide ((65 ≤ c ∧ c ≤ 90) ∨ (97 ≤ c ∧ c ≤ 122))

/-- Membership in `urllib.parse.scheme_chars` (letters, digits, `+-.`). -/
def schemeChar (c : Nat) : Bool :=
  isAsciiAlpha c || decide (48 ≤ c ∧ c ≤ 57) || decide (c = 43 ∨ c = 45 ∨ c = 46)

/-- `urllib.parse.uses_params` in CPython 3.11.6. -/
def usesParams : List PyStr :=
  [[], pyLit "ftp", pyLit "hdl", pyLit "prospero", pyLit "http", pyLit "imap",
   pyLit "https", pyLit "shttp", pyLit "rtsp", pyLit "rtsps", pyLit "rtspu",
   pyLit "sip", pyLit "sips", pyLit "mms", pyLit "sftp", pyLit "tel"]

/-- `urllib.parse.uses_netloc` in CPython 3.11.6. -/
def usesNetloc : List PyStr :=
  [[], pyLit "ftp", pyLit "http", pyLit "gopher", pyLit "nntp", pyLit "telnet",
   pyLit "imap", pyLit "wais", pyLit "file", pyLit "mms", pyLit "https",
   pyLit "shttp", pyLit "snews", pyLit "prospero", pyLit "rtsp", pyLit "rtsps",
   pyLit "rtspu", pyLit "rsync", pyLit "svn", pyLit "svn+ssh", pyLit "sftp",
   pyLit "nfs", pyLit "git", pyLit "git+ssh", pyLit "ws", pyLit "wss"]

/-- The cleaning step at the top of `urlsplit`: left-strip WHATWG C0
controls and space, then delete every tab, CR and LF. -/
def urlClean (url : PyStr) : PyStr :=
  (url.dropWhile (fun c => decide (c ≤ 32))).filter
    (fun c => decide (c ≠ 9 ∧ c ≠ 10 ∧ c ≠ 13))

/-- The scheme-detection step of `urlsplit`: split at the first colon when
the part before it is a non-empty run of scheme characters starting with an
ASCII letter; the scheme is lowercased. -/
def schemeSplit (url : PyStr) : PyStr × PyStr :=
  match splitOnce 58 url with
  | Option.none => ([], url)
  | Option.some (pre, post) =>
    if pre ≠ [] ∧ isAsciiAlpha (pre.headD 0) ∧ pre.all schemeChar then
      (pyLower pre, post)
    else ([], url)

/-- `_splitnetloc(url, 2)`: the authority runs up to the first `/`, `?` or
`#` after the leading `//`. -/
def splitnetloc (url : PyStr) : PyStr × PyStr :=
  let rest := url.drop 2
  let n := rest.takeWhile (fun c => decide (c ≠ 47 ∧ c ≠ 63 ∧ c ≠ 35))
  (n, rest.drop n.length)

/-- Fragment then query splitting of `urlsplit` (`split('#', 1)` when a
hash is present, then `split('?', 1)` when a question mark is present). -/
def splitFragQuery (url : PyStr) : PyStr × PyStr × PyStr :=
  let f := match splitOnce 35 url with
    | Option.none => (url, [])
    | Option.some (a, b) => (a, b)
  let q := match splitOnce 63 f.1 with
    | Option.none => (f.1, [])
    | Option.some (a, b) => (a, b)
  (q.1, q.2, f.2)

/-- Result of `urlsplit`. -/
structure UrlSplit where
  scheme : PyStr
  netloc : PyStr
  path : PyStr
  query : PyStr
  fragment : PyStr
deriving DecidableEq, Repr

/-- `urllib.parse.urlsplit`.  The `ValueError` for mismatched square
brackets in the authority is modelled as an error; the NFKC and
bracketed-host validations are not modelled (see the section comment). -/
def urlsplit (url0 : PyStr) : Except PyStr UrlSplit :=
  let url1 := urlClean url0
  let sr := schemeSplit url1
  let nr := if sr.2.take 2 = [47, 47] then splitnetloc sr.2 else ([], sr.2)
  if (nr.1.contains 91 && !nr.1.contains 93) ||
     (nr.1.contains 93 && !nr.1.contains 91) then
    Except.error (pyLit "Invalid IPv6 URL")
  else
    let fq := splitFragQuery nr.2
    Except.ok ⟨sr.1, nr.1, fq.1, fq.2.1, fq.2.2⟩

/-- The maximal slash-free suffix of a string (what follows its last `/`). -/
def afterLastSlash (url : PyStr) : PyStr :=
  (url.reverse.takeWhile (fun c => decide (c ≠ 47))).reverse

/-- `_splitparams`: split path parameters at the first `;` after the last
`/` (or the first `;` at all when the string has no slash).  `urlparse`
only calls this when a `;` is present; the out-of-range negative-index
sub-case of the source is unreachable there and not modelled. -/
def splitparams (url : PyStr) : PyStr × PyStr :=
  if url.contains 47 then
    let b := afterLastSlash url
    let front := url.take (url.length - b.length)
    match splitOnce 59 b with
    | Option.none => (url, [])
    | Option.some (b1, b2) => (front ++ b1, b2)
  else
    match splitOnce 59 url with
    | Option.none => (url, [])
    | Option.some (p, q) => (p, q)

/-- Result of `urlparse`. -/
structure UrlParse where
  scheme : PyStr
  netloc : PyStr
  path : PyStr
  params : PyStr
  query : PyStr
  fragment : PyStr
deriving DecidableEq, Repr

/-- `urllib.parse.urlparse`: `urlsplit` plus parameter splitting for the
schemes in `uses_params`. -/
def urlparse (url : PyStr) : Except PyStr UrlParse :=
  match urlsplit url with
  | Except.error e => Except.error e
  | Except.ok r =>
    let pp := if r.scheme ∈ usesParams ∧ r.path.contains 59 then
        splitparams r.path
      else (r.path, [])
    Except.ok ⟨r.scheme, r.netloc, pp.1, pp.2, r.query, r.fragment⟩

/-- `urllib.parse.urlunsplit`. -/
def urlunsplit (scheme netloc url query fragment : PyStr) : PyStr :=
  let u1 := if netloc ≠ [] ∨ (scheme ≠ [] ∧ scheme ∈ usesNetloc ∧ url.take 2 ≠ [47, 47]) then
      [47, 47] ++ netloc ++ (if url ≠ [] ∧ url.take 1 ≠ [47] then 47 :: url else url)
    else url
  let u2 := if scheme ≠ [] then scheme ++ 58 :: u1 else u1
  let u3 := if query ≠ [] then u2 ++ 63 :: query else u2
  if fragment ≠ [] then u3 ++ 35 :: fragment else u3

/-- `urllib.parse.urlunparse`. -/
def urlunparse (scheme netloc path params query fragment : PyStr) : PyStr :=
  urlunsplit scheme netloc (if params ≠ [] then path ++ 59 :: params else path)
    query fragment

/-- UTF-8 encoding of one code point; `none` on surrogates and
out-of-range values (Python `str.encode('utf-8')` raises there). -/
def utf8EncodeChar (c : Nat) : Option (List Nat) :=
  if c < 0x80 then Option.some [c]
  else if c < 0x800 then Option.some [0xC0 + c / 64, 0x80 + c % 64]
  else if 0xD800 ≤ c ∧ c ≤ 0xDFFF then Option.none
  else if c < 0x10000 then
    Option.some [0xE0 + c / 4096, 0x80 + (c / 64) % 64, 0x80 + c % 64]
  else if c < 0x110000 then
    Option.some [0xF0 + c / 262144, 0x80 + (c / 4096) % 64,
                 0x80 + (c / 64) % 64, 0x80 + c % 64]
  else Option.none

/-- UTF-8 encoding of a string (strict error mode). -/
def utf8Encode : PyStr → Option (List Nat)
  | [] => Option.some []
  | c :: s =>
    match utf8EncodeChar c, utf8Encode s with
    | Option.some b, Option.some r => Option.some (b ++ r)
    | _, _ => Option.none

/-- Fuelled UTF-8 decoder with U+FFFD replacement, following CPython's
handling of maximal invalid subparts (checked against
`bytes.decode('utf-8', 'replace')`). -/
def utf8DecodeGo : Nat → List Nat → PyStr
  | 0, _ => []
  | _ + 1, [] => []
  | fuel + 1, b :: bs =>
    if b < 0x80 then b :: utf8DecodeGo fuel bs
    else if b < 0xC2 then 0xFFFD :: utf8DecodeGo fuel bs
    else if b < 0xE0 then
      match bs with
      | c1 :: bs1 =>
        if 0x80 ≤ c1 ∧ c1 < 0xC0 then
          ((b - 0xC0) * 64 + (c1 - 0x80)) :: utf8DecodeGo fuel bs1
        else 0xFFFD :: utf8DecodeGo fuel bs
      | [] => [0xFFFD]
    else if b < 0xF0 then
      let lo1 := if b = 0xE0 then 0xA0 else 0x80
      let hi1 := if b = 0xED then 0x9F else 0xBF
      match bs with
      | c1 :: bs1 =>
        if lo1 ≤ c1 ∧ c1 ≤ hi1 then
          match bs1 with
          | c2 :: bs2 =>
            if 0x80 ≤ c2 ∧ c2 ≤ 0xBF then
              ((b - 0xE0) * 4096 + (c1 - 0x80) * 64 + (c2 - 0x80)) :: utf8DecodeGo fuel bs2
            else 0xFFFD :: utf8DecodeGo fuel bs1
          | [] => [0xFFFD]
        else 0xFFFD :: utf8DecodeGo fuel bs
      | [] => [0xFFFD]
    else if b < 0xF5 then
      let lo1 := if b = 0xF0 then 0x90 else 0x80
      let hi1 := if b = 0xF4 then 0x8F else 0xBF
      match bs with
      | c1 :: bs1 =>
        if lo1 ≤ c1 ∧ c1 ≤ hi1 then
          match bs1 with
          | c2 :: bs2 =>
            if 0x80 ≤ c2 ∧ c2 ≤ 0xBF then
              match bs2 with
              | c3 :: bs3 =>
                if 0x80 ≤ c3 ∧ c3 ≤ 0xBF then
                  ((b - 0xF0) * 262144 + (c1 - 0x80) * 4096 +
                   (c2 - 0x80) * 64 + (c3 - 0x80)) :: utf8DecodeGo fuel bs3
                else 0xFFFD :: utf8DecodeGo fuel bs2
              | [] => [0xFFFD]
            else 0xFFFD :: utf8DecodeGo fuel bs1
          | [] => [0xFFFD]
        else 0xFFFD :: utf8DecodeGo fuel bs
      | [] => [0xFFFD]
    else 0xFFFD :: utf8DecodeGo fuel bs

/-- UTF-8 decoding with replacement characters (`errors='replace'`). -/
def utf8Decode (bs : List Nat) : PyStr := utf8DecodeGo bs.length bs

/-- Bytes that `quote` never escapes (`_ALWAYS_SAFE`: letters, digits,
`_.-~`). -/
def alwaysSafe (c : Nat) : Bool :=
  isAsciiAlpha c || decide (48 ≤ c ∧ c ≤ 57) ||
  decide (c = 95 ∨ c = 46 ∨ c = 45 ∨ c = 126)

/-- Uppercase hexadecimal digit of a value below 16. -/
def hexDigitU (n : Nat) : Nat := if n < 10 then 48 + n else 55 + n

/-- Percent-quote a single byte unless it is safe. -/
def quoteByte (safeExtra : List Nat) (b : Nat) : List Nat :=
  if alwaysSafe b || safeExtra.contains b then [b]
  else [37, hexDigitU (b / 16), hexDigitU (b % 16)]

/-- `urllib.parse.quote(s, safe)`: UTF-8 encode, then percent-quote each
unsafe byte; `none` when encoding raises. -/
def pyQuote (safeExtra : List Nat) (s : PyStr) : Option PyStr :=
  (utf8Encode s).map (fun bs => bs.flatMap (quoteByte safeExtra))

/-- `urllib.parse.quote_plus`: when the string has a space, quote with
space kept safe and then replace spaces by `+`. -/
def pyQuotePlus (s : PyStr) : Option PyStr :=
  if s.contains 32 then (pyQuote [32] s).map (fun q => pyReplace q [32] [43])
  else pyQuote [] s

/-- Value of one hexadecimal digit character (either case). -/
def hexVal (c : Nat) : Option Nat :=
  if 48 ≤ c ∧ c ≤ 57 then Option.some (c - 48)
  else if 65 ≤ c ∧ c ≤ 70 then Option.some (c - 55)
  else if 97 ≤ c ∧ c ≤ 102 then Option.some (c - 87)
  else Option.none

/-- `unquote_to_bytes` on an ASCII run: split on `%`; a chunk starting with
two hex digits contributes the decoded byte, otherwise the `%` stays. -/
def unquoteToBytes (s : PyStr) : List Nat :=
  match pySplit 37 s with
  | [] => []
  | b0 :: rest =>
    b0 ++ rest.flatMap (fun item =>
      match item with
      | c1 :: c2 :: t =>
        match hexVal c1, hexVal c2 with
        | Option.some h1, Option.some h2 => (h1 * 16 + h2) :: t
        | _, _ => 37 :: item
      | _ => 37 :: item)

/-- Fuelled worker for `unquote`: non-ASCII runs pass through, ASCII runs
are percent-decoded to bytes and UTF-8 decoded with replacement. -/
def unquoteRunsGo : Nat → PyStr → PyStr
  | 0, s => s
  | _ + 1, [] => []
  | fuel + 1, c :: s =>
    let na := (c :: s).takeWhile (fun a => decide (128 ≤ a))
    let rest := (c :: s).drop na.length
    let a := rest.takeWhile (fun a => decide (a < 128))
    na ++ utf8Decode (unquoteToBytes a) ++ unquoteRunsGo fuel (rest.drop a.length)

/-- `urllib.parse.unquote` (encoding `utf-8`, errors `replace`); a string
without `%` is returned unchanged. -/
def pyUnquote (s : PyStr) : PyStr :=
  if s.contains 37 then unquoteRunsGo s.length s else s

/-- `urllib.parse.unquote_plus`: `+` becomes a space, then `unquote`. -/
def pyUnquotePlus (s : PyStr) : PyStr := pyUnquote (pyReplace s [43] [32])

/-- One `name=value` item of `parse_qsl` (blank values kept, empty items
skipped). -/
def qslItem (nv : PyStr) : Option (PyStr × PyStr) :=
  if nv = [] then Option.none
  else match splitOnce 61 nv with
    | Option.none => Option.some (pyUnquotePlus nv, [])
    | Option.some (n, v) => Option.some (pyUnquotePlus n, pyUnquotePlus v)

/-- `urllib.parse.parse_qsl(qs, keep_blank_values=True)`. -/
def parse_qsl (qs : PyStr) : List (PyStr × PyStr) :=
  let pairs := if qs = [] then [] else pySplit 38 qs
  pairs.filterMap qslItem

/-- Quote the `k=v` items of `urlencode` (values are strings here). -/
def urlencodeParts : List (PyStr × PyStr) → Option (List PyStr)
  | [] => Option.some []
  | (k, v) :: rest =>
    match pyQuotePlus k, pyQuotePlus v, urlencodeParts rest with
    | Option.some ke, Option.some ve, Option.some rs =>
      Option.some ((ke ++ 61 :: ve) :: rs)
    | _, _, _ => Option.none

/-- `urllib.parse.urlencode(q, doseq=True)` on a mapping with string
values: quote each key and value with `quote_plus` and join with `&`. -/
def urlencode (pairs : List (PyStr × PyStr)) : Option PyStr :=
  (urlencodeParts pairs).map (List.intercalate [38])

/-- Assignment `d[k] = v` on a Python dict modelled as an insertion-ordered
association list: overwrite in place when the key exists, else append. -/
def dictSet (d : List (PyStr × PyStr)) (k v : PyStr) : List (PyStr × PyStr) :=
  if d.any (fun p => decide (p.1 = k)) then
    d.map (fun p => if p.1 = k then (k, v) else p)
  else d ++ [(k, v)]

/-- `dict(pairs)`: left-to-right insertion, later duplicates overwrite the
value but keep the first position. -/
def dictOfPairs (ps : List (PyStr × PyStr)) : List (PyStr × PyStr) :=
  ps.foldl (fun d p => dictSet d p.1 p.2) []

/-- `with_affiliate_tag` from `build_page.py`; exceptions escaping from
`urlsplit` or `str.encode` are modelled as `Except.error`. -/
def with_affiliate_tag (url tag : PyStr) : Except PyStr PyStr :=
  match urlparse url with
  | Except.error e => Except.error e
  | Except.ok u =>
    let q := dictSet (dictOfPairs (parse_qsl u.query)) (pyLit "tag") tag
    match urlencode q with
    | Option.none => Except.error (pyLit "UnicodeEncodeError")
    | Option.some nq =>
      Except.ok (urlunparse u.scheme u.netloc u.path u.params nq u.fragment)

instance : DecidableEq (Except PyStr PyStr)
  | Except.error x, Except.error y =>
    if h : x = y then Decidable.isTrue (congrArg Except.error h)
    else Decidable.isFalse (fun hc => h (Except.error.inj hc))
  | Except.error _, Except.ok _ => Decidable.isFalse (fun hc => Except.noConfusion hc)
  | Except.ok _, Except.error _ => Decidable.isFalse (fun hc => Except.noConfusion hc)
  | Except.ok x, Except.ok y =>
    if h : x = y then Decidable.isTrue (congrArg Except.ok h)
    else Decidable.isFalse (fun hc => h (Except.ok.inj hc))

/-!
### Image caching (`_safe_ext`, `cache_image`)
-/

/-- The alternatives of the regex `\.(png|jpe?g|webp|avif|gif)(?:\?|$)` in
the order the regex engine tries them at one position. -/
def extCands : List PyStr :=
  [pyLit "png", pyLit "jpeg", pyLit "jpg", pyLit "webp", pyLit "avif", pyLit "gif"]

/-- Try the alternatives after a dot: the candidate must be followed by a
question mark or the end of the string. -/
def extMatchAt (rest : PyStr) : Option PyStr :=
  extCands.find? (fun cand =>
    cand.isPrefixOf rest &&
      (decide (rest.drop cand.length = []) || decide ((rest.drop cand.length).headD 0 = 63)))

/-- `re.search` for the extension pattern: leftmost match wins. -/
def regexExtSearch : PyStr → Option PyStr
  | [] => Option.none
  | c :: s =>
    if c = 46 then
      match extMatchAt s with
      | Option.some e => Option.some e
      | Option.none => regexExtSearch s
    else regexExtSearch s

/-- The content-type table of `_safe_ext` (first `;`-field, stripped and
lowercased). -/
def ctypeExt (ct : PyStr) : Option PyStr :=
  let c := pyLower (pyStrip ((pySplit 59 ct).headD []))
  if c = pyLit "image/png" then Option.some (pyLit ".png")
  else if c = pyLit "image/jpeg" ∨ c = pyLit "image/jpg" then Option.some (pyLit ".jpg")
  else if c = pyLit "image/webp" then Option.some (pyLit ".webp")
  else if c = pyLit "image/avif" then Option.some (pyLit ".avif")
  else if c = pyLit "image/gif" then Option.some (pyLit ".gif")
  else Option.none

/-- The URL-pattern fallback of `_safe_ext`, on the lowercased URL, with
`jpeg` collapsed to `jpg` and `.img` as the final fallback. -/
def safeExtFallback (url : PyStr) : PyStr :=
  match regexExtSearch (pyLower url) with
  | Option.some e => [46] ++ pyReplace e (pyLit "jpeg") (pyLit "jpg")
  | Option.none => pyLit ".img"

/-- `_safe_ext(url, content_type)` from `build_page.py`: a truthy content
type is consulted first, then the URL pattern, then the generic `.img`. -/
def safe_ext (url : PyStr) (contentType : Option PyStr) : PyStr :=
  match contentType with
  | Option.some ct =>
    if ct ≠ [] then
      match ctypeExt ct with
      | Option.some e => e
      | Option.none => safeExtFallback url
    else safeExtFallback url
  | Option.none => safeExtFallback url

/-- The placeholder image path constant. -/
def PLACEHOLDER : PyStr := pyLit "assets/placeholder.svg"

/-- Outcome of the single `requests.get` call: a transport-level exception,
or a response with status code, `Content-Type` header and body bytes. -/
inductive FetchOutcome where
  | exn : FetchOutcome
  | resp : Nat → Option PyStr → List Nat → FetchOutcome
deriving DecidableEq, Repr

/-- An image file written to disk. -/
structure FileWrite where
  path : PyStr
  content : List Nat
deriving DecidableEq, Repr

/-- `cache_image(asin, remote_url)` from `build_page.py`, with the network
interaction passed in as an explicit `FetchOutcome` and the filesystem
write returned explicitly (the `mkdir` of the images directory is not an
image-file write and is not modelled).  The Python body catches every
exception, so the model is a total function: on an empty URL it returns the
placeholder, on any fetch failure it returns the remote URL unchanged. -/
def cache_image (asin remote_url : PyStr) (fetch : FetchOutcome) :
    PyStr × Option FileWrite :=
  if remote_url = [] then (PLACEHOLDER, Option.none)
  else
    match fetch with
    | FetchOutcome.exn => (remote_url, Option.none)
    | FetchOutcome.resp status ctype body =>
      if status ≠ 200 ∨ body = [] then (remote_url, Option.none)
      else
        let ext := safe_ext remote_url ctype
        let localPath := pyLit "assets/img/" ++ asin ++ ext
        (pyReplace localPath (pyLit "\\") (pyLit "/"), Option.some ⟨localPath, body⟩)

/-!
### HTML rendering (`tags_html`, `build_intro`, `card`, `main`)
-/

/-- `tags_html` from `build_page.py`. -/
def tags_html (tags : List PyStr) : PyStr :=
  if tags = [] then []
  else
    pyLit "<div class=\"tags\">" ++
      ((tags.take 2).flatMap (fun t => pyLit "<span class=\"tag\">" ++ esc t ++ pyLit "</span>")) ++
      pyLit "</div>"

/-- `build_intro` from `build_page.py`. -/
def build_intro (intro_paragraphs : List PyStr) (meta_note : PyStr) : PyStr :=
  let parts := intro_paragraphs.filterMap (fun p =>
    if pyStrip p = [] then Option.none
    else Option.some (pyLit "<p>" ++ esc (pyStrip p) ++ pyLit "</p>"))
  let parts := if meta_note ≠ [] ∧ pyStrip meta_note ≠ [] then
      parts ++ [pyLit "<p class=\"meta\">" ++ esc (pyStrip meta_note) ++ pyLit "</p>"]
    else parts
  List.intercalate (pyLit "\n") parts

/-- `card(p, partner_tag)` from `build_page.py`.  The module-level
`CACHE_IMAGES` flag and the network are explicit parameters; the affiliate
URL construction can raise, which propagates as `Except.error`. -/
def card (cacheImages : Bool) (fetch : FetchOutcome) (p : NormalizedProduct)
    (partner_tag : PyStr) : Except PyStr PyStr :=
  match with_affiliate_tag p.amazon_url partner_tag with
  | Except.error e => Except.error e
  | Except.ok url =>
    let src0 := p.image_url
    let src1 := if cacheImages then (cache_image p.asin src0 fetch).1 else src0
    let src := if src1 = [] then PLACEHOLDER else src1
    let img_html :=
      pyLit "<img src=\"" ++ esc src ++ pyLit "\" alt=\"" ++ esc p.name ++
      pyLit "\" loading=\"lazy\" referrerpolicy=\"no-referrer\" onerror=\"this.onerror=null;this.src=\x27assets/placeholder.svg\x27;\">"
    Except.ok (
      pyLit "<div class=\"card\">" ++
      pyLit "  <div class=\"img\">" ++ img_html ++ pyLit "</div>" ++
      pyLit "  <div class=\"content\">" ++
      pyLit "    <p class=\"name\">" ++ esc p.name ++ pyLit "</p>" ++
      pyLit "    " ++ tags_html p.best_for ++
      pyLit "    <p class=\"desc\">" ++ esc p.description ++ pyLit "</p>" ++
      pyLit "    <div class=\"actions\">" ++
      pyLit "      <a class=\"btn\" href=\"" ++ esc url ++ pyLit "\" rel=\"nofollow sponsored\">Check price on Amazon</a>" ++
      pyLit "    </div>" ++
      pyLit "  </div>" ++
      pyLit "</div>")

/-- Chunk 0 of the HTML template (the literal text between the format slots). -/
def htmlT0 : PyStr :=
  pyLit "<!doctype html>\n" ++
  pyLit "<html lang=\"en\">\n" ++
  pyLit "<head>\n" ++
  pyLit "  <meta charset=\"utf-8\">\n" ++
  pyLit "  <meta name=\"viewport\" content=\"width=device-width, initial-scale=1\">\n" ++
  pyLit "  <title>"

/-- Chunk 1 of the HTML template (the literal text between the format slots). -/
def htmlT1 : PyStr :=
  pyLit "</title>\n" ++
  pyLit "  <meta name=\"description\" content=\""

/-- Chunk 2 of the HTML template (the literal text between the format slots). -/
def htmlT2 : PyStr :=
  pyLit "\">\n" ++
  pyLit "  <style>\n" ++
  pyLit "    body \x7b font-family: system-ui, -apple-system, Segoe UI, Roboto, Helvetica, Arial, sans-serif; margin: 0; background:#fafafa; color:#111; \x7d\n" ++
  pyLit "    header, main, footer \x7b max-width: 1060px; margin: 0 auto; padding: 18px 16px; \x7d\n" ++
  pyLit "    h1 \x7b font-size: 28px; margin: 10px 0 8px; \x7d\n" ++
  pyLit "    p \x7b margin: 8px 0; line-height: 1.5; \x7d\n" ++
  pyLit "    .meta \x7b color:#444; font-size: 14px; \x7d\n" ++
  pyLit "    .grid \x7b display:grid; grid-template-columns: repeat(3, minmax(0, 1fr)); gap: 14px; \x7d\n" ++
  pyLit "    .card \x7b background:white; border-radius: 14px; overflow:hidden; box-shadow: 0 2px 10px rgba(0,0,0,0.06); display:flex; flex-direction:column; \x7d\n" ++
  pyLit "    .img \x7b background:#f3f4f6; aspect-ratio: 4 / 3; overflow:hidden; \x7d\n" ++
  pyLit "    .img img \x7b width:100%; height:100%; object-fit:contain; display:block; background:#fff; \x7d\n" ++
  pyLit "    .content \x7b padding: 12px 14px 14px; display:flex; flex-direction:column; gap:8px; flex:1; \x7d\n" ++
  pyLit "    .name \x7b font-weight: 800; font-size: 16px; margin: 0; \x7d\n" ++
  pyLit "    .desc \x7b color:#333; font-size: 14px; margin:0; \x7d\n" ++
  pyLit "    .tags \x7b display:flex; flex-wrap:wrap; gap:6px; margin:2px 0 0; \x7d\n" ++
  pyLit "    .tag \x7b font-size: 12px; padding: 4px 8px; border: 1px solid #e5e7eb; background:#f9fafb; border-radius: 999px; color:#374151; \x7d\n" ++
  pyLit "    .actions \x7b margin-top:auto; display:flex; gap:10px; align-items:center; padding-top: 4px; \x7d\n" ++
  pyLit "    .btn \x7b display:inline-block; padding: 10px 12px; border:1px solid #ddd; border-radius: 12px; background:#fff; font-weight: 700; text-align:center; \x7d\n" ++
  pyLit "    .btn:hover \x7b background:#f7f7f7; text-decoration:none; \x7d\n" ++
  pyLit "    a \x7b color:#0b57d0; text-decoration: none; \x7d\n" ++
  pyLit "    a:hover \x7b text-decoration: underline; \x7d\n" ++
  pyLit "    @media (max-width: 980px) \x7b\n" ++
  pyLit "      .grid \x7b grid-template-columns: repeat(2, minmax(0, 1fr)); \x7d\n" ++
  pyLit "    \x7d\n" ++
  pyLit "    @media (max-width: 640px) \x7b\n" ++
  pyLit "      .grid \x7b grid-template-columns: 1fr; \x7d\n" ++
  pyLit "    \x7d\n" ++
  pyLit "  </style>\n" ++
  pyLit "</head>\n" ++
  pyLit "<body>\n" ++
  pyLit "  <header>\n" ++
  pyLit "    <h1>"

/-- Chunk 3 of the HTML template (the literal text between the format slots). -/
def htmlT3 : PyStr :=
  pyLit "</h1>\n" ++
  pyLit "    "

/-- Chunk 4 of the HTML template (the literal text between the format slots). -/
def htmlT4 : PyStr :=
  pyLit "\n" ++
  pyLit "    <p class=\"meta\">Last updated: "

/-- Chunk 5 of the HTML template (the literal text between the format slots). -/
def htmlT5 : PyStr :=
  pyLit "</p>\n" ++
  pyLit "  </header>\n" ++
  pyLit "\n" ++
  pyLit "  <main>\n" ++
  pyLit "    <div class=\"grid\">\n" ++
  pyLit "      "

/-- Chunk 6 of the HTML template (the literal text between the format slots). -/
def htmlT6 : PyStr :=
  pyLit "\n" ++
  pyLit "    </div>\n" ++
  pyLit "  </main>\n" ++
  pyLit "\n" ++
  pyLit "  <footer>\n" ++
  pyLit "    <p><strong>Affiliate disclosure:</strong> As an Amazon Associate, I earn from qualifying purchases.</p>\n" ++
  pyLit "    <p><a href=\"privacy.html\">Privacy</a> \u00c2\u00b7 <a href=\"disclosure.html\">Disclosure</a></p>\n" ++
  pyLit "  </footer>\n" ++
  pyLit "</body>\n" ++
  pyLit "</html>\n" ++
  pyLit ""

/-- The formatted HTML page: `HTML.format(title=..., desc=..., h1=..., intro=..., updated=..., cards=...)`. -/
def htmlFormat (title desc h1 intro updated cards : PyStr) : PyStr :=
  htmlT0 ++ title ++ htmlT1 ++ desc ++ htmlT2 ++ h1 ++ htmlT3 ++ intro ++
  htmlT4 ++ updated ++ htmlT5 ++ cards ++ htmlT6

/-!
### JSON output (`json.dumps(..., indent=2)`)
-/

/-- Lowercase hexadecimal digit of a value below 16. -/
def hexDigitL (n : Nat) : Nat := if n < 10 then 48 + n else 87 + n

/-- Four lowercase hex digits of a value below 0x10000. -/
def hex4 (n : Nat) : PyStr :=
  [hexDigitL (n / 4096 % 16), hexDigitL (n / 256 % 16), hexDigitL (n / 16 % 16), hexDigitL (n % 16)]

/-- JSON escaping of one character (`ensure_ascii=True`): the two-character
escapes of the encoder table, `\u00xx` for other controls, `\uxxxx` for
non-ASCII (as a surrogate pair beyond the basic plane). -/
def jsonEscChar (c : Nat) : PyStr :=
  if c = 34 then [92, 34]
  else if c = 92 then [92, 92]
  else if c = 8 then [92, 98]
  else if c = 12 then [92, 102]
  else if c = 10 then [92, 110]
  else if c = 13 then [92, 114]
  else if c = 9 then [92, 116]
  else if 32 ≤ c ∧ c ≤ 126 then [c]
  else if c < 0x10000 then [92, 117] ++ hex4 c
  else [92, 117] ++ hex4 (0xD800 + (c - 0x10000) / 1024) ++ [92, 117] ++ hex4 (0xDC00 + (c - 0x10000) % 1024)

/-- A JSON string literal for `s`. -/
def jsonString (s : PyStr) : PyStr := [34] ++ s.flatMap jsonEscChar ++ [34]

/-- A JSON array of strings rendered by `json.dumps` with `indent=2`,
where `pad` is the indentation of the line holding the opening bracket. -/
def jsonStrArray (pad : PyStr) (xs : List PyStr) : PyStr :=
  if xs = [] then pyLit "[]"
  else
    pyLit "[\n" ++
    List.intercalate (pyLit ",\n") (xs.map (fun x => pad ++ pyLit "  " ++ jsonString x)) ++
    pyLit "\n" ++ pad ++ pyLit "]"

/-- One normalized product as rendered inside the `products` array of
`json.dumps({...}, indent=2)` (object lines at indent 6). -/
def jsonProduct (p : NormalizedProduct) : PyStr :=
  pyLit "\x7b\n      \"asin\": " ++ jsonString p.asin ++
  pyLit ",\n      \"name\": " ++ jsonString p.name ++
  pyLit ",\n      \"description\": " ++ jsonString p.description ++
  pyLit ",\n      \"image_url\": " ++ jsonString p.image_url ++
  pyLit ",\n      \"amazon_url\": " ++ jsonString p.amazon_url ++
  pyLit ",\n      \"best_for\": " ++ jsonStrArray (pyLit "      ") p.best_for ++
  pyLit "\n    \x7d"

/-- `json.dumps({"products": products, "updated": updated, "title": title}, indent=2)`. -/
def jsonDumpsMain (products : List NormalizedProduct) (updated title : PyStr) : PyStr :=
  pyLit "\x7b\n  \"products\": " ++
  (if products = [] then pyLit "[]"
   else pyLit "[\n    " ++
     List.intercalate (pyLit ",\n    ") (products.map jsonProduct) ++
     pyLit "\n  ]") ++
  pyLit ",\n  \"updated\": " ++ jsonString updated ++
  pyLit ",\n  \"title\": " ++ jsonString title ++
  pyLit "\n\x7d"

/-!
### The `main` pipeline
-/

/-- The site configuration as parsed from `site_config.json`: the five
recognized keys, each possibly absent (`load_config` fills the defaults). -/
structure SiteConfig where
  title : Option PyStr := Option.none
  description : Option PyStr := Option.none
  intro_paragraphs : List PyStr := []
  meta_note : Option PyStr := Option.none
  products : Option (List RawRecord) := Option.none
deriving DecidableEq, Repr

/-- Render the card of every product, propagating any exception. -/
def renderCards (cacheImages : Bool) (fetch : FetchOutcome) (partner_tag : PyStr) :
    List NormalizedProduct → Except PyStr (List PyStr)
  | [] => Except.ok []
  | p :: ps =>
    match card cacheImages fetch p partner_tag, renderCards cacheImages fetch partner_tag ps with
    | Except.ok c, Except.ok cs => Except.ok (c :: cs)
    | Except.error e, _ => Except.error e
    | _, Except.error e => Except.error e

/-- The pure core of `main` (after `load_config` applied its defaults):
given the configuration, the `AMZ_PARTNER_TAG` environment value, the
formatted `updated` timestamp and the caching flag, it either aborts
(missing partner tag, or an exception from rendering) or produces the pair
(contents of `index.html`, contents of `products.json`). -/
def mainCore (cfg : SiteConfig) (env_partner_tag : Option PyStr) (updated : PyStr)
    (cacheImages : Bool) (fetch : FetchOutcome) : Except PyStr (PyStr × PyStr) :=
  let partner_tag := pyStrip (env_partner_tag.getD [])
  if partner_tag = [] then
    Except.error (pyLit "Missing AMZ_PARTNER_TAG (set as GitHub Actions secret).")
  else
    let products := normalize_products (cfg.products.getD [])
    match renderCards cacheImages fetch partner_tag products with
    | Except.error e => Except.error e
    | Except.ok cardList =>
      let cards := List.intercalate (pyLit "\n") cardList
      let intro := build_intro cfg.intro_paragraphs (cfg.meta_note.getD [])
      let title := pyStrip (pyOr cfg.title (pyLit "Product shortlist"))
      let desc := pyStrip (pyOr cfg.description [])
      Except.ok (htmlFormat (esc title) (esc desc) (esc title) intro updated cards,
                 jsonDumpsMain products updated title)

/-- The `CACHE_IMAGES` toggle:
`os.environ.get("CACHE_IMAGES", "0").strip() in {"1", "true", "TRUE", "yes", "YES"}`. -/
def cacheImagesFlag (env : Option PyStr) : Bool :=
  (pyStrip (env.getD (pyLit "0"))) ∈
    [pyLit "1", pyLit "true", pyLit "TRUE", pyLit "yes", pyLit "YES"]

/-!
### Observation helpers and concrete test inputs used by the theorems
-/

/-- Whether an `Except` computation succeeded. -/
def exceptOk (e : Except PyStr PyStr) : Bool :=
  match e with
  | Except.ok _ => true
  | Except.error _ => false

/-- The string produced by a successful computation (empty on error). -/
def okStr (e : Except PyStr PyStr) : PyStr :=
  match e with
  | Except.ok s => s
  | Except.error _ => []

/-- Character-wise description of `esc`: each of the five special
characters becomes its entity, every other character stays. -/
def escChar (c : Nat) : PyStr :=
  if c = 38 then pyLit "&amp;"
  else if c = 60 then pyLit "&lt;"
  else if c = 62 then pyLit "&gt;"
  else if c = 34 then pyLit "&quot;"
  else if c = 39 then pyLit "&#39;"
  else [c]

/-- The entity tails that may legitimately follow an ampersand in escaped
output. -/
def escTails : List PyStr :=
  [pyLit "amp;", pyLit "lt;", pyLit "gt;", pyLit "quot;", pyLit "#39;"]

/-- Checker that every ampersand in a string starts one of the five
entities produced by `esc`. -/
def escOk : PyStr → Bool
  | [] => true
  | c :: s =>
    (if c = 38 then escTails.any (fun t => t.isPrefixOf s) else true) && escOk s

/-- The hostile product name of the escaping test. -/
def hostileName : PyStr := pyLit "<script>&\"\x27"

/-- Raw record carrying the hostile name. -/
def record3 : RawRecord :=
  { amazon_asin := Option.some (pyLit "B9"), product_name := Option.some hostileName }

/-- The card rendered for the hostile record (caching off). -/
def card3 : Except PyStr PyStr :=
  match normalize_products [record3] with
  | [p] => card false FetchOutcome.exn p (pyLit "t")
  | _ => Except.error []

/-- The example record of the specification: asin `B001`, name `Widget`,
empty image URL, three tags. -/
def record5 : RawRecord :=
  { amazon_asin := Option.some (pyLit "B001")
    product_name := Option.some (pyLit "Widget")
    image_url := Option.some (pyLit "")
    best_for := BFVal.vList [pyLit "Home", pyLit "Office", pyLit "Extra"] }

/-- The card rendered for the example record with partner tag `tag123` and
caching disabled. -/
def card5 : Except PyStr PyStr :=
  match normalize_products [record5] with
  | [p] => card false FetchOutcome.exn p (pyLit "tag123")
  | _ => Except.error []

/-- A record with three tags, used by the C7 witness. -/
def record7 : RawRecord :=
  { amazon_asin := Option.some (pyLit "A7")
    best_for := BFVal.vList [pyLit "a", pyLit "b", pyLit "c"] }

/-- The fallback extension lookup as the claim words it (a second
definition following the specification text, for comparison with
`safeExtFallback`): the extension pattern is matched in the URL's path
component rather than in the whole URL string. -/
def safeExtFallbackPath (url : PyStr) : PyStr :=
  match urlparse url with
  | Except.ok u =>
    match regexExtSearch (pyLower u.path) with
    | Option.some e => [46] ++ pyReplace e (pyLit "jpeg") (pyLit "jpg")
    | Option.none => pyLit ".img"
  | Except.error _ => pyLit ".img"

/-- `_safe_ext` as the claim describes it: content type first, then the
extension pattern in the URL's path, then the generic extension. -/
def safe_ext_specPath (url : PyStr) (contentType : Option PyStr) : PyStr :=
  match contentType with
  | Option.some ct =>
    if ct ≠ [] then
      match ctypeExt ct with
      | Option.some e => e
      | Option.none => safeExtFallbackPath url
    else safeExtFallbackPath url
  | Option.none => safeExtFallbackPath url

/-- Spec-side description of the extension chosen for a recognized content
type, used to state the corrected C6 precedence property. -/
def recognizedCtExt (ct : PyStr) : Option PyStr := ctypeExt ct

/-!
## Theorems

### General list and string lemmas
-/

theorem isPrefixOf_append_of {p a : PyStr} (b : PyStr) (h : p.isPrefixOf a = true) :
    p.isPrefixOf (a ++ b) = true := by
  induction p generalizing a with
  | nil => simp [List.isPrefixOf]
  | cons c p ih =>
    cases a with
    | nil => simp [List.isPrefixOf] at h
    | cons x a =>
      simp only [List.isPrefixOf, List.cons_append, Bool.and_eq_true] at h ⊢
      exact ⟨h.1, ih h.2⟩

theorem startsWithB_append_of {p a : PyStr} (b : PyStr) (h : startsWithB p a = true) :
    startsWithB p (a ++ b) = true :=
  isPrefixOf_append_of b h

theorem endsWithB_append_of {p b : PyStr} (a : PyStr) (h : endsWithB p b = true) :
    endsWithB p (a ++ b) = true := by
  unfold endsWithB at h ⊢
  rw [List.reverse_append]
  exact isPrefixOf_append_of _ h

theorem containsSub_append_right {p b : PyStr} (a : PyStr) (h : containsSub p b = true) :
    containsSub p (a ++ b) = true := by
  induction a with
  | nil => simpa using h
  | cons x a ih =>
    simp only [List.cons_append, containsSub, Bool.or_eq_true]
    exact Or.inr ih

theorem containsSub_append_left {p a : PyStr} (b : PyStr) (h : containsSub p a = true) :
    containsSub p (a ++ b) = true := by
  induction a with
  | nil =>
    simp only [containsSub] at h
    have hp : p = [] := by
      cases p with
      | nil => rfl
      | cons c q => simp [List.isPrefixOf] at h
    subst hp
    cases b with
    | nil => simp [containsSub, List.isPrefixOf]
    | cons y b => simp [containsSub, List.isPrefixOf]
  | cons x a ih =>
    simp only [containsSub, Bool.or_eq_true] at h
    simp only [List.cons_append, containsSub, Bool.or_eq_true]
    cases h with
    | inl h => exact Or.inl (isPrefixOf_append_of b h)
    | inr h => exact Or.inr (ih h)

theorem countCh_append (c : Nat) (a b : PyStr) :
    countCh c (a ++ b) = countCh c a + countCh c b := by
  unfold countCh
  exact List.countP_append _ _ _

/-!
### `splitOnce`, `pySplit` and `pyReplace` lemmas
-/

theorem splitOnce_of_not_mem {c : Nat} {s : PyStr} (h : c ∉ s) :
    splitOnce c s = Option.none := by
  induction s with
  | nil => rfl
  | cons a t ih =>
    simp only [List.mem_cons, not_or] at h
    simp only [splitOnce, if_neg (Ne.symm h.1), ih h.2]

theorem splitOnce_append {c : Nat} {A : PyStr} (B : PyStr) (h : c ∉ A) :
    splitOnce c (A ++ c :: B) = Option.some (A, B) := by
  induction A with
  | nil => simp [splitOnce]
  | cons a t ih =>
    simp only [List.mem_cons, not_or] at h
    have hrec := ih h.2
    have hstep : (a :: t) ++ c :: B = a :: (t ++ c :: B) := rfl
    rw [hstep]
    simp only [splitOnce, if_neg (Ne.symm h.1), hrec]

theorem splitOnce_sound {c : Nat} {s l r : PyStr} (h : splitOnce c s = Option.some (l, r)) :
    s = l ++ c :: r ∧ c ∉ l := by
  induction s generalizing l with
  | nil => simp [splitOnce] at h
  | cons a t ih =>
    simp only [splitOnce] at h
    by_cases hac : a = c
    · rw [if_pos hac] at h
      obtain ⟨h1, h2⟩ := Prod.mk.injEq .. ▸ Option.some.injEq .. ▸ h
      subst hac; simp_all
    · rw [if_neg hac] at h
      cases hs : splitOnce c t with
      | none => rw [hs] at h; simp at h
      | some p =>
        obtain ⟨l1, r1⟩ := p
        rw [hs] at h
        simp only [Option.some.injEq, Prod.mk.injEq] at h
        obtain ⟨hl, hr⟩ := h
        obtain ⟨ht, hnot⟩ := ih (by rw [hs, hr])
        subst hl
        constructor
        · simp [ht, hr]
        · simp only [List.mem_cons, not_or]
          exact ⟨fun e => hac e.symm, hnot⟩

theorem pyReplaceGo_single (c : Nat) (r : PyStr) :
    ∀ (fuel : Nat) (s : PyStr), s.length ≤ fuel →
      pyReplaceGo fuel s [c] r = s.flatMap (fun x => if x = c then r else [x]) := by
  intro fuel
  induction fuel with
  | zero =>
    intro s h
    cases s with
    | nil => rfl
    | cons a t => simp at h
  | succ n ih =>
    intro s h
    cases s with
    | nil => rfl
    | cons a t =>
      simp only [List.length_cons, Nat.succ_le_succ_iff] at h
      simp only [pyReplaceGo]
      have hpre : ([c].isPrefixOf (a :: t)) = (c == a) := by
        simp [List.isPrefixOf]
      rw [hpre]
      by_cases hca : c = a
      · subst hca
        simp only [beq_self_eq_true, if_true]
        have hd : (c :: t).drop [c].length = t := rfl
        rw [hd, ih t h, List.flatMap_cons, if_pos rfl]
      · have hb : (c == a) = false := by simp [hca]
        rw [hb]
        simp only [Bool.false_eq_true, if_false]
        rw [ih t h, List.flatMap_cons, if_neg (Ne.symm hca)]
        rfl

theorem pyReplace_single (s : PyStr) (c : Nat) (r : PyStr) :
    pyReplace s [c] r = s.flatMap (fun x => if x = c then r else [x]) := by
  unfold pyReplace
  rw [if_neg (by simp)]
  exact pyReplaceGo_single c r s.length s (Nat.le_refl _)

/-!
### The `esc` function
-/

theorem esc_flatMap (s : PyStr) : esc s = s.flatMap escChar := by
  unfold esc
  rw [show pyLit "&" = [38] from rfl, show pyLit "<" = [60] from rfl,
      show pyLit ">" = [62] from rfl, show pyLit "\"" = [34] from rfl,
      show pyLit "\x27" = [39] from rfl]
  rw [pyReplace_single, pyReplace_single, pyReplace_single, pyReplace_single,
      pyReplace_single]
  induction s with
  | nil => rfl
  | cons a t ih =>
    simp only [List.flatMap_cons, List.flatMap_append]
    rw [ih]
    congr 1
    by_cases h38 : a = 38
    · subst h38; decide
    by_cases h60 : a = 60
    · subst h60; decide
    by_cases h62 : a = 62
    · subst h62; decide
    by_cases h34 : a = 34
    · subst h34; decide
    by_cases h39 : a = 39
    · subst h39; decide
    simp [escChar, h38, h60, h62, h34, h39]

theorem esc_cons (a : Nat) (s : PyStr) : esc (a :: s) = escChar a ++ esc s := by
  rw [esc_flatMap, esc_flatMap, List.flatMap_cons]

theorem esc_countCh (s : PyStr) :
    countCh 60 (esc s) = 0 ∧ countCh 62 (esc s) = 0 ∧
    countCh 34 (esc s) = 0 ∧ countCh 39 (esc s) = 0 := by
  induction s with
  | nil => exact ⟨rfl, rfl, rfl, rfl⟩
  | cons a t ih =>
    rw [esc_cons]
    have hhead : countCh 60 (escChar a) = 0 ∧ countCh 62 (escChar a) = 0 ∧
        countCh 34 (escChar a) = 0 ∧ countCh 39 (escChar a) = 0 := by
      by_cases h38 : a = 38
      · subst h38; exact ⟨rfl, rfl, rfl, rfl⟩
      by_cases h60 : a = 60
      · subst h60; exact ⟨rfl, rfl, rfl, rfl⟩
      by_cases h62 : a = 62
      · subst h62; exact ⟨rfl, rfl, rfl, rfl⟩
      by_cases h34 : a = 34
      · subst h34; exact ⟨rfl, rfl, rfl, rfl⟩
      by_cases h39 : a = 39
      · subst h39; exact ⟨rfl, rfl, rfl, rfl⟩
      simp [escChar, h38, h60, h62, h34, h39, countCh]
    refine ⟨?_, ?_, ?_, ?_⟩ <;>
      rw [countCh_append] <;> omega

theorem escOk_append {a b : PyStr} (ha : escOk a = true) (hb : escOk b = true)
    (hjoin : ∀ t ∈ escTails, ∀ s, t.isPrefixOf s = true → t.isPrefixOf (s ++ b) = true) :
    escOk (a ++ b) = true := by
  induction a with
  | nil => simpa using hb
  | cons c t ih =>
    simp only [escOk, Bool.and_eq_true] at ha
    simp only [List.cons_append, escOk, Bool.and_eq_true]
    refine ⟨?_, ih ha.2⟩
    by_cases hc : c = 38
    · rw [if_pos hc]
      rw [if_pos hc] at ha
      have := ha.1
      simp only [List.any_eq_true] at this ⊢
      obtain ⟨tl, htl, hp⟩ := this
      exact ⟨tl, htl, hjoin tl htl t hp⟩
    · rw [if_neg hc]

theorem escOk_esc (s : PyStr) : escOk (esc s) = true := by
  induction s with
  | nil => rfl
  | cons a t ih =>
    rw [esc_cons]
    refine escOk_append ?_ ih ?_
    · by_cases h38 : a = 38
      · subst h38; decide
      by_cases h60 : a = 60
      · subst h60; decide
      by_cases h62 : a = 62
      · subst h62; decide
      by_cases h34 : a = 34
      · subst h34; decide
      by_cases h39 : a = 39
      · subst h39; decide
      simp [escChar, escOk, h38, h60, h62, h34, h39]
    · intro tl _ s2 hp
      exact isPrefixOf_append_of _ hp

/-!
### Claim theorems: escaping, caching flag, image caching
-/

set_option maxRecDepth 40000 in
/-- C3: every string passed through `esc` loses all raw `<`, `>`, `"` and
`'` characters, and every remaining `&` begins one of the five entities;
the hostile product name `<script>&"'` escapes to
`&lt;script&gt;&amp;&quot;&#39;`, and the card rendered for a product with
that name contains the escaped form and no raw occurrence of the hostile
substring. -/
theorem C3_html_escaping :
    (∀ s : PyStr, countCh 60 (esc s) = 0 ∧ countCh 62 (esc s) = 0 ∧
      countCh 34 (esc s) = 0 ∧ countCh 39 (esc s) = 0)
    ∧ (∀ s : PyStr, escOk (esc s) = true)
    ∧ esc hostileName = pyLit "&lt;script&gt;&amp;&quot;&#39;"
    ∧ exceptOk card3 = true
    ∧ containsSub hostileName (okStr card3) = false
    ∧ containsSub (pyLit "&lt;script&gt;&amp;&quot;&#39;") (okStr card3) = true := by
  refine ⟨esc_countCh, escOk_esc, by decide, by decide, by decide, by decide⟩

/-- C9: the caching toggle is on exactly when the trimmed value of the
`CACHE_IMAGES` variable is one of `1`, `true`, `TRUE`, `yes`, `YES`; an
unset variable and any other value, including the mixed-case spellings
`True` and `Yes`, leave it off. -/
theorem C9_cache_images_toggle :
    (∀ s : PyStr, cacheImagesFlag (Option.some s)
        = decide (pyStrip s ∈ [pyLit "1", pyLit "true", pyLit "TRUE", pyLit "yes", pyLit "YES"]))
    ∧ cacheImagesFlag Option.none = false
    ∧ cacheImagesFlag (Option.some (pyLit "True")) = false
    ∧ cacheImagesFlag (Option.some (pyLit "Yes")) = false
    ∧ cacheImagesFlag (Option.some (pyLit " true\t")) = true := by
  exact ⟨fun s => rfl, by decide, by decide, by decide, by decide⟩

/-- C4: with caching enabled, `cache_image` on a non-empty URL returns the
original remote URL unchanged and writes nothing whenever the fetch fails —
by transport exception, non-200 status, or empty body — and on an empty URL
it returns the fixed placeholder path immediately; it never raises, being a
total function into a result/write pair. -/
theorem C4_cache_image_failure :
    ∀ (asin remote : PyStr) (fetch : FetchOutcome),
      (remote ≠ [] →
        (fetch = FetchOutcome.exn ∨
          (∃ st ct body, fetch = FetchOutcome.resp st ct body ∧ (st ≠ 200 ∨ body = []))) →
        cache_image asin remote fetch = (remote, Option.none))
      ∧ cache_image asin [] fetch = (PLACEHOLDER, Option.none) := by
  intro asin remote fetch
  constructor
  · intro hr hf
    rcases hf with hexn | ⟨st, ct, body, hresp, hfail⟩
    · subst hexn
      simp [cache_image, hr]
    · subst hresp
      simp only [cache_image, if_neg hr]
      rw [if_pos hfail]
  · simp [cache_image]

/-- Witness for C4 at a concrete failing fetch and at the empty URL. -/
theorem C4_cache_image_failure_witness :
    cache_image (pyLit "B1") (pyLit "http://x/i.png")
        (FetchOutcome.resp 404 Option.none [7]) = (pyLit "http://x/i.png", Option.none)
    ∧ cache_image (pyLit "B1") [] FetchOutcome.exn = (PLACEHOLDER, Option.none) :=
  ⟨(C4_cache_image_failure (pyLit "B1") (pyLit "http://x/i.png")
      (FetchOutcome.resp 404 Option.none [7])).1 (by decide)
      (Or.inr ⟨404, Option.none, [7], rfl, Or.inl (by decide)⟩),
   (C4_cache_image_failure (pyLit "B1") [] FetchOutcome.exn).2⟩

/-- C6 counterexample: for the URL `https://h/x?q=.gif` with no declared
content type, the code picks `.gif` from the query string, although the
URL's path `/x` contains no extension pattern, so the claim's path-based
fallback (which yields `.img`) does not describe the code. -/
theorem C6_counterexample :
    safe_ext (pyLit "https://h/x?q=.gif") Option.none = pyLit ".gif"
    ∧ safe_ext_specPath (pyLit "https://h/x?q=.gif") Option.none = pyLit ".img"
    ∧ safe_ext (pyLit "https://h/x?q=.gif") Option.none
        ≠ safe_ext_specPath (pyLit "https://h/x?q=.gif") Option.none := by
  refine ⟨by decide, by decide, by decide⟩

/-- C6 amended: the extension comes first from a recognized declared
content type, then from the extension pattern matched anywhere in the
lowercased URL string (when followed by `?` or the end), then the generic
`.img`; a successful download is written to `assets/img/{asin}{ext}`. -/
theorem C6_extension_precedence :
    (∀ (url ct : PyStr) (e : PyStr), ct ≠ [] → recognizedCtExt ct = Option.some e →
      safe_ext url (Option.some ct) = e)
    ∧ (∀ url ct : PyStr, recognizedCtExt ct = Option.none →
      safe_ext url (Option.some ct) = safeExtFallback url)
    ∧ (∀ url : PyStr, safe_ext url Option.none = safeExtFallback url)
    ∧ (∀ url : PyStr, regexExtSearch (pyLower url) = Option.none →
      safeExtFallback url = pyLit ".img")
    ∧ (∀ (asin url : PyStr) (st : Nat) (ct : Option PyStr) (body : List Nat),
        url ≠ [] → st = 200 → body ≠ [] →
        cache_image asin url (FetchOutcome.resp st ct body)
          = (pyReplace (pyLit "assets/img/" ++ asin ++ safe_ext url ct) (pyLit "\\") (pyLit "/"),
             Option.some ⟨pyLit "assets/img/" ++ asin ++ safe_ext url ct, body⟩)) := by
  refine ⟨?_, ?_, ?_, ?_, ?_⟩
  · intro url ct e hct he
    unfold recognizedCtExt at he
    simp only [safe_ext]
    rw [if_pos hct, he]
  · intro url ct he
    unfold recognizedCtExt at he
    simp only [safe_ext]
    by_cases hct : ct = []
    · rw [if_neg (by simp [hct])]
    · rw [if_pos hct, he]
  · intro url
    rfl
  · intro url hnone
    unfold safeExtFallback
    rw [hnone]
  · intro asin url st ct body hurl hst hbody
    subst hst
    simp only [cache_image, if_neg hurl]
    rw [if_neg (by simp [hbody])]

/-- Witness for the amended C6 at concrete inputs: a recognized content
type wins over the URL, and a successful fetch writes `assets/img/B1.png`. -/
theorem C6_extension_precedence_witness :
    safe_ext (pyLit "http://x/a.gif") (Option.some (pyLit "image/PNG")) = pyLit ".png"
    ∧ cache_image (pyLit "B1") (pyLit "http://x/a.png")
        (FetchOutcome.resp 200 (Option.some (pyLit "image/png")) [9])
      = (pyReplace (pyLit "assets/img/" ++ pyLit "B1" ++ safe_ext (pyLit "http://x/a.png") (Option.some (pyLit "image/png"))) (pyLit "\\") (pyLit "/"),
         Option.some ⟨pyLit "assets/img/" ++ pyLit "B1" ++ safe_ext (pyLit "http://x/a.png") (Option.some (pyLit "image/png")), [9]⟩) :=
  ⟨C6_extension_precedence.1 (pyLit "http://x/a.gif") (pyLit "image/PNG") (pyLit ".png")
      (by decide) (by decide),
   C6_extension_precedence.2.2.2.2 (pyLit "B1") (pyLit "http://x/a.png") 200
      (Option.some (pyLit "image/png")) [9] (by decide) rfl (by decide)⟩

set_option maxRecDepth 40000 in
/-- C5: the specification's example — record `B001`/`Widget` with an empty
image URL and three tags, partner tag `tag123`, caching disabled — renders
a card named `Widget` with exactly the two pills `Home` and `Office`, the
placeholder image, and the action link
`https://www.amazon.com/dp/B001?tag=tag123`. -/
theorem C5_example_card :
    exceptOk card5 = true
    ∧ containsSub (pyLit "<p class=\"name\">Widget</p>") (okStr card5) = true
    ∧ countSub (pyLit "<span class=\"tag\">") (okStr card5) = 2
    ∧ containsSub (pyLit "<span class=\"tag\">Home</span><span class=\"tag\">Office</span>") (okStr card5) = true
    ∧ containsSub (pyLit "Extra") (okStr card5) = false
    ∧ containsSub (pyLit "<img src=\"assets/placeholder.svg\"") (okStr card5) = true
    ∧ containsSub (pyLit "href=\"https://www.amazon.com/dp/B001?tag=tag123\"") (okStr card5) = true := by
  refine ⟨by decide, by decide, by decide, by decide, by decide, by decide, by decide⟩

/-!
### The normalizer claims
-/

theorem normalizeGo_map_asin :
    ∀ (items : List RawRecord) (seen : List PyStr),
      (normalizeGo seen items).map NormalizedProduct.asin
        = firstOccFrom seen ((items.map trimmedAsin).filter (fun a => decide (a ≠ []))) := by
  intro items
  induction items with
  | nil => intro seen; rfl
  | cons it rest ih =>
    intro seen
    simp only [normalizeGo, List.map_cons, List.filter_cons]
    by_cases ha : trimmedAsin it = []
    · rw [if_pos (Or.inl ha)]
      rw [show (decide (trimmedAsin it ≠ [])) = false by simp [ha]]
      simp only [Bool.false_eq_true, if_false]
      exact ih seen
    · rw [show (decide (trimmedAsin it ≠ [])) = true by simp [ha]]
      simp only [if_true]
      by_cases hm : trimmedAsin it ∈ seen
      · rw [if_pos (Or.inr hm)]
        simp only [firstOccFrom, if_pos hm]
        exact ih seen
      · rw [if_neg (by push_neg; exact ⟨ha, hm⟩)]
        simp only [List.map_cons, firstOccFrom, if_neg hm]
        rw [ih (trimmedAsin it :: seen)]
        rfl

theorem firstOccFrom_nodup_mem :
    ∀ (l : List PyStr) (seen : List PyStr),
      (firstOccFrom seen l).Nodup ∧ ∀ x ∈ firstOccFrom seen l, x ∉ seen := by
  intro l
  induction l with
  | nil => intro seen; exact ⟨List.nodup_nil, by simp [firstOccFrom]⟩
  | cons a t ih =>
    intro seen
    by_cases hm : a ∈ seen
    · simp only [firstOccFrom, if_pos hm]
      exact ih seen
    · simp only [firstOccFrom, if_neg hm]
      obtain ⟨hnd, hmem⟩ := ih (a :: seen)
      refine ⟨List.Nodup.cons ?_ hnd, ?_⟩
      · intro hmemA
        exact (hmem a hmemA) (List.mem_cons_self a seen)
      · intro x hx
        rcases List.mem_cons.mp hx with hxa | hxt
        · rwa [hxa]
        · intro hxs
          exact (hmem x hxt) (List.mem_cons_of_mem a hxs)

/-- C1: `normalize_products` emits no two entries with the same `asin`,
and the emitted identifiers are exactly the first occurrences of the
non-empty trimmed input identifiers, in input order — a record whose
trimmed `amazon_asin` is empty or already seen produces no output. -/
theorem C1_normalize_dedup :
    ∀ items : List RawRecord,
      ((normalize_products items).map NormalizedProduct.asin).Nodup
      ∧ (normalize_products items).map NormalizedProduct.asin
          = firstOcc ((items.map trimmedAsin).filter (fun a => decide (a ≠ []))) := by
  intro items
  have hmap := normalizeGo_map_asin items []
  have hnodup : ((normalize_products items).map NormalizedProduct.asin).Nodup := by
    rw [show normalize_products items = normalizeGo [] items from rfl, hmap]
    exact (firstOccFrom_nodup_mem _ []).1
  exact ⟨hnodup, hmap⟩

theorem mem_normalizeGo :
    ∀ (items : List RawRecord) (seen : List PyStr) (p : NormalizedProduct),
      p ∈ normalizeGo seen items → ∃ it a, p = emitRecord it a := by
  intro items
  induction items with
  | nil => intro seen p h; simp [normalizeGo] at h
  | cons it rest ih =>
    intro seen p h
    simp only [normalizeGo] at h
    by_cases hc : trimmedAsin it = [] ∨ trimmedAsin it ∈ seen
    · rw [if_pos hc] at h
      exact ih seen p h
    · rw [if_neg hc] at h
      rcases List.mem_cons.mp h with he | ht
      · exact ⟨it, trimmedAsin it, he⟩
      · exact ih _ p ht

theorem nameField_ne_nil (o : Option PyStr) : nameField o ≠ [] := by
  unfold nameField
  by_cases h : pyStrip (pyOr o []) = []
  · rw [if_pos h]; decide
  · rw [if_neg h]; exact h

/-- C10: every normalized product has a non-empty `name`; an absent,
empty or whitespace-only `product_name` yields the default `Product`. -/
theorem C10_name_nonempty :
    (∀ (items : List RawRecord) (p : NormalizedProduct),
      p ∈ normalize_products items → p.name ≠ [])
    ∧ (∀ o : Option PyStr, pyStrip (pyOr o []) = [] → nameField o = pyLit "Product") := by
  constructor
  · intro items p hp
    obtain ⟨it, a, he⟩ := mem_normalizeGo items [] p hp
    rw [he]
    exact nameField_ne_nil it.product_name
  · intro o h
    unfold nameField
    rw [if_pos h]

/-- Witness for C10: a record without a product name is emitted with a
non-empty name, and a whitespace-only name defaults to `Product`. -/
theorem C10_name_nonempty_witness :
    (emitRecord { amazon_asin := Option.some (pyLit "A1") } (pyLit "A1")).name ≠ []
    ∧ nameField (Option.some (pyLit "  ")) = pyLit "Product" :=
  ⟨C10_name_nonempty.1 [{ amazon_asin := Option.some (pyLit "A1") }] _ (by decide),
   C10_name_nonempty.2 (Option.some (pyLit "  ")) (by decide)⟩

theorem computeBestFor_length (v : BFVal) : (computeBestFor v).length ≤ 2 := by
  have htake : ∀ l : List PyStr, (bestForComp l).length ≤ 2 := by
    intro l
    unfold bestForComp
    simp [List.length_take]
  cases v with
  | vNone => exact htake []
  | vStr s =>
    simp only [computeBestFor]
    by_cases h : s = []
    · rw [if_pos h]; exact htake []
    · rw [if_neg h]; exact htake [s]
  | vList xs => exact htake xs
  | vOther => exact htake []

/-- C7: the normalized `best_for` always has length at most 2; a single
string is wrapped, a non-sequence value becomes empty, only non-empty
trimmed elements are kept and truncated to the first two; the tag-pill row
depends only on the first two tags and is emitted exactly when a tag
exists. -/
theorem C7_best_for_cap :
    (∀ (items : List RawRecord) (p : NormalizedProduct),
      p ∈ normalize_products items → p.best_for.length ≤ 2)
    ∧ (∀ s : PyStr, s ≠ [] → computeBestFor (BFVal.vStr s) = bestForComp [s])
    ∧ computeBestFor BFVal.vNone = [] ∧ computeBestFor BFVal.vOther = []
    ∧ (∀ xs : List PyStr, computeBestFor (BFVal.vList xs)
        = ((xs.map pyStrip).filter (fun x => decide (x ≠ []))).take 2)
    ∧ (∀ tags : List PyStr, tags_html tags = tags_html (tags.take 2))
    ∧ tags_html [] = []
    ∧ (∀ tags : List PyStr, tags ≠ [] → tags_html tags ≠ []) := by
  refine ⟨?_, ?_, rfl, rfl, fun xs => rfl, ?_, rfl, ?_⟩
  · intro items p hp
    obtain ⟨it, a, he⟩ := mem_normalizeGo items [] p hp
    rw [he]
    exact computeBestFor_length it.best_for
  · intro s hs
    simp only [computeBestFor, if_neg hs]
  · intro tags
    by_cases h : tags = []
    · subst h; rfl
    · have h2 : tags.take 2 ≠ [] := by
        cases tags with
        | nil => exact absurd rfl h
        | cons a t => simp
      simp only [tags_html, if_neg h, if_neg h2, List.take_take, Nat.min_self]
  · intro tags h
    simp only [tags_html, if_neg h]
    intro habs
    have hl := congrArg List.length habs
    simp only [List.length_append, List.length_nil] at hl
    have hlen : (pyLit "<div class=\"tags\">").length = 18 := by decide
    omega

/-- Witness for C7: a record with three tags keeps two of them, a bare
string is wrapped, and a one-tag pill row is emitted. -/
theorem C7_best_for_cap_witness :
    (emitRecord record7 (pyLit "A7")).best_for.length ≤ 2
    ∧ computeBestFor (BFVal.vStr (pyLit " solo ")) = bestForComp [pyLit " solo "]
    ∧ tags_html [pyLit "a"] ≠ [] :=
  ⟨C7_best_for_cap.1 [record7] _ (by decide),
   C7_best_for_cap.2.1 (pyLit " solo ") (by decide),
   C7_best_for_cap.2.2.2.2.2.2.2 [pyLit "a"] (by decide)⟩

/-!
### The empty-products build (C8)
-/

/-- C8: with an empty or absent products list (and a non-empty partner
tag), the build succeeds and produces a complete HTML document — doctype
prefix, closing `</html>` suffix, and a product grid containing only
whitespace — while the JSON output is `{"products": [], "updated": ...,
"title": ...}` with the build timestamp and the resolved title. -/
theorem C8_empty_products :
    ∀ (titleF descF metaF : Option PyStr) (intro : List PyStr)
      (prodF : Option (List RawRecord)) (env : Option PyStr) (updated : PyStr)
      (ci : Bool) (fetch : FetchOutcome),
      (prodF = Option.none ∨ prodF = Option.some []) →
      pyStrip (env.getD []) ≠ [] →
      ∃ html json,
        mainCore ⟨titleF, descF, intro, metaF, prodF⟩ env updated ci fetch
          = Except.ok (html, json)
        ∧ startsWithB (pyLit "<!doctype html>") html = true
        ∧ endsWithB (pyLit "</body>\n</html>\n") html = true
        ∧ containsSub (pyLit "<div class=\"grid\">\n      \n    </div>") html = true
        ∧ json = pyLit "\x7b\n  \"products\": " ++ pyLit "[]" ++ pyLit ",\n  \"updated\": "
            ++ jsonString updated ++ pyLit ",\n  \"title\": "
            ++ jsonString (pyStrip (pyOr titleF (pyLit "Product shortlist"))) ++ pyLit "\n\x7d" := by
  intro titleF descF metaF intro0 prodF env updated ci fetch hprod henv
  refine ⟨htmlFormat (esc (pyStrip (pyOr titleF (pyLit "Product shortlist"))))
      (esc (pyStrip (pyOr descF []))) (esc (pyStrip (pyOr titleF (pyLit "Product shortlist"))))
      (build_intro intro0 (metaF.getD [])) updated [],
    jsonDumpsMain [] updated (pyStrip (pyOr titleF (pyLit "Product shortlist"))), ?_, ?_, ?_, ?_, ?_⟩
  · rcases hprod with h | h <;> subst h <;>
      (unfold mainCore; rw [if_neg henv]; rfl)
  · unfold htmlFormat
    iterate 12 apply startsWithB_append_of
    decide
  · unfold htmlFormat
    exact endsWithB_append_of _ (by decide)
  · unfold htmlFormat
    simp only [List.append_nil]
    rw [List.append_assoc]
    exact containsSub_append_right _ (by decide)
  · rfl

/-- Witness for C8 at a concrete empty configuration. -/
theorem C8_empty_products_witness :
    ∃ html json,
      mainCore ⟨Option.none, Option.none, [], Option.none, Option.none⟩
          (Option.some (pyLit "t")) (pyLit "2026-10-12 00:00 UTC") false FetchOutcome.exn
        = Except.ok (html, json)
      ∧ startsWithB (pyLit "<!doctype html>") html = true
      ∧ endsWithB (pyLit "</body>\n</html>\n") html = true
      ∧ containsSub (pyLit "<div class=\"grid\">\n      \n    </div>") html = true
      ∧ json = pyLit "\x7b\n  \"products\": " ++ pyLit "[]" ++ pyLit ",\n  \"updated\": "
          ++ jsonString (pyLit "2026-10-12 00:00 UTC") ++ pyLit ",\n  \"title\": "
          ++ jsonString (pyStrip (pyOr Option.none (pyLit "Product shortlist"))) ++ pyLit "\n\x7d" :=
  C8_empty_products Option.none Option.none Option.none [] Option.none
    (Option.some (pyLit "t")) (pyLit "2026-10-12 00:00 UTC") false FetchOutcome.exn
    (Or.inl rfl) (by decide)

/-!
### Lemmas towards C2: `pySplit` and percent decoding
-/

theorem splitOnce_append_left {c : Nat} {A : PyStr} (B : PyStr) (h : c ∉ A) :
    splitOnce c (A ++ B) =
      match splitOnce c B with
      | Option.none => Option.none
      | Option.some (l, r) => Option.some (A ++ l, r) := by
  induction A with
  | nil =>
    simp only [List.nil_append]
    cases splitOnce c B with
    | none => rfl
    | some p => rfl
  | cons a t ih =>
    simp only [List.mem_cons, not_or] at h
    have hrec := ih h.2
    have hstep : (a :: t) ++ B = a :: (t ++ B) := rfl
    rw [hstep]
    simp only [splitOnce, if_neg (Ne.symm h.1), hrec]
    cases splitOnce c B with
    | none => rfl
    | some p => rfl

theorem pySplitGo_fuel (c : Nat) :
    ∀ (fuel : Nat) (s : PyStr), s.length ≤ fuel →
      pySplitGo c fuel s = pySplitGo c s.length s := by
  intro fuel
  induction fuel using Nat.strong_induction_on with
  | _ fuel ih =>
    intro s h
    cases fuel with
    | zero =>
      have h0 : s.length = 0 := Nat.le_zero.mp h
      rw [h0]
    | succ n =>
      cases hs : splitOnce c s with
      | none =>
        cases hl : s.length with
        | zero => simp [pySplitGo, hs]
        | succ m => simp [pySplitGo, hs]
      | some p =>
        obtain ⟨l, r⟩ := p
        obtain ⟨hdec, _⟩ := splitOnce_sound hs
        have hlen : s.length = (l.length + r.length) + 1 := by
          rw [hdec]; simp [List.length_append]; omega
        rw [hlen]
        simp only [pySplitGo, hs]
        rw [ih n (by omega) r (by omega),
            ih (l.length + r.length) (by omega) r (by omega)]

theorem pySplit_no_sep {c : Nat} {s : PyStr} (h : splitOnce c s = Option.none) :
    pySplit c s = [s] := by
  unfold pySplit
  cases hl : s.length with
  | zero => rfl
  | succ m => simp [pySplitGo, h]

theorem pySplit_cons {c : Nat} {s l r : PyStr} (h : splitOnce c s = Option.some (l, r)) :
    pySplit c s = l :: pySplit c r := by
  unfold pySplit
  obtain ⟨hdec, _⟩ := splitOnce_sound h
  have hlen : s.length = (l.length + r.length) + 1 := by
    rw [hdec]; simp [List.length_append]; omega
  rw [hlen]
  simp only [pySplitGo, h]
  rw [pySplitGo_fuel c (l.length + r.length) r (by omega)]

theorem unquoteToBytes_cons {b : Nat} (hb : b ≠ 37) (s : PyStr) :
    unquoteToBytes (b :: s) = b :: unquoteToBytes s := by
  unfold unquoteToBytes
  cases hs : splitOnce 37 s with
  | none =>
    have h1 : splitOnce 37 (b :: s) = Option.none := by
      simp [splitOnce, hb, hs]
    rw [pySplit_no_sep h1, pySplit_no_sep hs]
    simp
  | some p =>
    obtain ⟨l, r⟩ := p
    have h1 : splitOnce 37 (b :: s) = Option.some (b :: l, r) := by
      simp [splitOnce, hb, hs]
    rw [pySplit_cons h1, pySplit_cons hs]
    simp

theorem hexVal_ne_37 {c h : Nat} (hc : hexVal c = Option.some h) : c ≠ 37 := by
  intro he
  subst he
  simp [hexVal] at hc

theorem unquoteToBytes_pct {c1 c2 h1 h2 : Nat} (hc1 : hexVal c1 = Option.some h1)
    (hc2 : hexVal c2 = Option.some h2) (s : PyStr) :
    unquoteToBytes (37 :: c1 :: c2 :: s) = (h1 * 16 + h2) :: unquoteToBytes s := by
  have hn1 : c1 ≠ 37 := hexVal_ne_37 hc1
  have hn2 : c2 ≠ 37 := hexVal_ne_37 hc2
  have hsp : splitOnce 37 (37 :: c1 :: c2 :: s) = Option.some ([], c1 :: c2 :: s) := by
    simp [splitOnce]
  cases hs : splitOnce 37 s with
  | none =>
    have h2s : splitOnce 37 (c1 :: c2 :: s) = Option.none := by
      simp [splitOnce, hn1, hn2, hs]
    unfold unquoteToBytes
    rw [pySplit_cons hsp, pySplit_no_sep h2s, pySplit_no_sep hs]
    simp [hc1, hc2]
  | some p =>
    obtain ⟨l, r⟩ := p
    have h2s : splitOnce 37 (c1 :: c2 :: s) = Option.some (c1 :: c2 :: l, r) := by
      simp [splitOnce, hn1, hn2, hs]
    unfold unquoteToBytes
    rw [pySplit_cons hsp, pySplit_cons h2s, pySplit_cons hs]
    simp [hc1, hc2]

theorem hexVal_hexDigitU {n : Nat} (h : n < 16) :
    hexVal (hexDigitU n) = Option.some n := by
  unfold hexVal hexDigitU
  by_cases h10 : n < 10
  · rw [if_pos h10, if_pos (show 48 ≤ 48 + n ∧ 48 + n ≤ 57 by omega)]
    congr 1
    omega
  · rw [if_neg h10]
    rw [if_neg (show ¬(48 ≤ 55 + n ∧ 55 + n ≤ 57) by omega)]
    rw [if_pos (show 65 ≤ 55 + n ∧ 55 + n ≤ 70 by omega)]
    congr 1
    omega

theorem unquoteToBytes_quote (safeE : List Nat) (hE : (37 : Nat) ∉ safeE) :
    ∀ bs : List Nat, (∀ b ∈ bs, b < 256) →
      unquoteToBytes (bs.flatMap (quoteByte safeE)) = bs := by
  intro bs
  induction bs with
  | nil => intro _; rfl
  | cons b t ih =>
    intro hlt
    rw [List.flatMap_cons]
    by_cases hsafe : (alwaysSafe b || safeE.contains b) = true
    · have hq : quoteByte safeE b = [b] := by
        unfold quoteByte; rw [if_pos hsafe]
      rw [hq]
      have hb37 : b ≠ 37 := by
        intro he
        subst he
        have h37 : alwaysSafe 37 = false := by decide
        rw [h37, Bool.false_or] at hsafe
        exact hE (by simpa using hsafe)
      rw [List.singleton_append, unquoteToBytes_cons hb37,
          ih (fun x hx => hlt x (List.mem_cons_of_mem b hx))]
    · have hq : quoteByte safeE b = [37, hexDigitU (b / 16), hexDigitU (b % 16)] := by
        unfold quoteByte; rw [if_neg hsafe]
      rw [hq]
      have hb : b < 256 := hlt b (List.mem_cons_self b t)
      have e1 : hexVal (hexDigitU (b / 16)) = Option.some (b / 16) :=
        hexVal_hexDigitU (by omega)
      have e2 : hexVal (hexDigitU (b % 16)) = Option.some (b % 16) :=
        hexVal_hexDigitU (by omega)
      simp only [List.cons_append, List.nil_append]
      rw [unquoteToBytes_pct e1 e2,
          ih (fun x hx => hlt x (List.mem_cons_of_mem b hx))]
      congr 1
      omega

/-!
### UTF-8 round trip
-/

theorem utf8EncodeChar_bytes_lt {c : Nat} {bs : List Nat}
    (h : utf8EncodeChar c = Option.some bs) : ∀ b ∈ bs, b < 256 := by
  unfold utf8EncodeChar at h
  split_ifs at h with h1 h2 h3 h4 h5 <;>
    (cases h; intro b hb; simp at hb; omega)

theorem utf8EncodeChar_ne_nil {c : Nat} {bs : List Nat}
    (h : utf8EncodeChar c = Option.some bs) : bs ≠ [] := by
  unfold utf8EncodeChar at h
  split_ifs at h <;> (cases h; simp)

theorem utf8DecodeGo_encodeChar {c : Nat} {bs : List Nat}
    (h : utf8EncodeChar c = Option.some bs) (rest : List Nat) (fuel : Nat) :
    utf8DecodeGo (fuel + 1) (bs ++ rest) = c :: utf8DecodeGo fuel rest := by
  unfold utf8EncodeChar at h
  split_ifs at h with h1 h2 h3 h4 h5
  · -- one byte
    cases h
    have hsh : ([c] : List Nat) ++ rest = c :: rest := rfl
    rw [hsh]
    simp only [utf8DecodeGo]
    rw [if_pos h1]
  · -- two bytes
    cases h
    have hsh : ([0xC0 + c / 64, 0x80 + c % 64] : List Nat) ++ rest
        = (0xC0 + c / 64) :: (0x80 + c % 64) :: rest := rfl
    rw [hsh]
    simp only [utf8DecodeGo]
    rw [if_neg (by omega), if_neg (by omega), if_pos (by omega),
        if_pos (by constructor <;> omega)]
    have hval : (0xC0 + c / 64 - 0xC0) * 64 + (0x80 + c % 64 - 0x80) = c := by omega
    rw [hval]
  · -- three bytes
    cases h
    have hsh : ([0xE0 + c / 4096, 0x80 + c / 64 % 64, 0x80 + c % 64] : List Nat) ++ rest
        = (0xE0 + c / 4096) :: (0x80 + c / 64 % 64) :: (0x80 + c % 64) :: rest := rfl
    rw [hsh]
    simp only [utf8DecodeGo]
    rw [if_neg (by omega), if_neg (by omega), if_neg (by omega), if_pos (by omega)]
    rw [if_pos (by constructor <;> split_ifs <;> omega)]
    rw [if_pos (by constructor <;> omega)]
    have hval : (0xE0 + c / 4096 - 0xE0) * 4096 + (0x80 + c / 64 % 64 - 0x80) * 64 +
        (0x80 + c % 64 - 0x80) = c := by omega
    rw [hval]
  · -- four bytes
    cases h
    have hsh : ([0xF0 + c / 262144, 0x80 + c / 4096 % 64, 0x80 + c / 64 % 64, 0x80 + c % 64] : List Nat) ++ rest
        = (0xF0 + c / 262144) :: (0x80 + c / 4096 % 64) :: (0x80 + c / 64 % 64) :: (0x80 + c % 64) :: rest := rfl
    rw [hsh]
    simp only [utf8DecodeGo]
    rw [if_neg (by omega), if_neg (by omega), if_neg (by omega), if_neg (by omega),
        if_pos (by omega)]
    rw [if_pos (by constructor <;> split_ifs <;> omega)]
    rw [if_pos (by constructor <;> omega)]
    rw [if_pos (by constructor <;> omega)]
    have hval : (0xF0 + c / 262144 - 0xF0) * 262144 + (0x80 + c / 4096 % 64 - 0x80) * 4096 +
        (0x80 + c / 64 % 64 - 0x80) * 64 + (0x80 + c % 64 - 0x80) = c := by omega
    rw [hval]

theorem utf8Encode_decode_general :
    ∀ (s : PyStr) (bs : List Nat), utf8Encode s = Option.some bs →
      ∀ (rest : List Nat) (fuel : Nat),
        utf8DecodeGo (fuel + s.length) (bs ++ rest) = s ++ utf8DecodeGo fuel rest := by
  intro s
  induction s with
  | nil =>
    intro bs h rest fuel
    cases h
    simp
  | cons c t ih =>
    intro bs h rest fuel
    unfold utf8Encode at h
    cases hc : utf8EncodeChar c with
    | none => rw [hc] at h; simp at h
    | some bc =>
      rw [hc] at h
      cases ht : utf8Encode t with
      | none => rw [ht] at h; simp at h
      | some bt =>
        rw [ht] at h
        simp only [Option.some.injEq] at h
        subst h
        have hassoc : (bc ++ bt) ++ rest = bc ++ (bt ++ rest) := List.append_assoc ..
        rw [hassoc]
        have hstep : fuel + (c :: t).length = (fuel + t.length) + 1 := by
          simp [List.length_cons]; omega
        rw [hstep, utf8DecodeGo_encodeChar hc (bt ++ rest) (fuel + t.length)]
        rw [ih bt ht rest fuel]
        rfl

theorem utf8Encode_length_le {s : PyStr} {bs : List Nat}
    (h : utf8Encode s = Option.some bs) : s.length ≤ bs.length := by
  induction s generalizing bs with
  | nil => cases h; simp
  | cons c t ih =>
    unfold utf8Encode at h
    cases hc : utf8EncodeChar c with
    | none => rw [hc] at h; simp at h
    | some bc =>
      rw [hc] at h
      cases ht : utf8Encode t with
      | none => rw [ht] at h; simp at h
      | some bt =>
        rw [ht] at h
        simp only [Option.some.injEq] at h
        subst h
        have h1 : bc ≠ [] := utf8EncodeChar_ne_nil hc
        have h2 : 1 ≤ bc.length := by
          cases bc with
          | nil => exact absurd rfl h1
          | cons x xs => simp
        have := ih ht
        simp [List.length_append]
        omega

theorem utf8Encode_decode {s : PyStr} {bs : List Nat} (h : utf8Encode s = Option.some bs) :
    utf8Decode bs = s := by
  unfold utf8Decode
  have hle := utf8Encode_length_le h
  have hsplit : bs.length = (bs.length - s.length) + s.length := by omega
  rw [hsplit]
  have := utf8Encode_decode_general s bs h [] (bs.length - s.length)
  rw [List.append_nil] at this
  rw [this]
  have hnil : utf8DecodeGo (bs.length - s.length) [] = [] := by
    cases hf : bs.length - s.length with
    | zero => rfl
    | succ m => rfl
  rw [hnil, List.append_nil]

/-!
### `quote_plus` / `unquote_plus` round trip
-/

theorem flatMap_id_of_single {α : Type} (f : α → List α) :
    ∀ s : List α, (∀ x ∈ s, f x = [x]) → s.flatMap f = s := by
  intro s
  induction s with
  | nil => intro _; rfl
  | cons a t ih =>
    intro h
    rw [List.flatMap_cons, h a (List.mem_cons_self a t),
        ih (fun x hx => h x (List.mem_cons_of_mem a hx))]
    rfl

theorem pyReplace_not_mem {c : Nat} {s : PyStr} (r : PyStr) (h : c ∉ s) :
    pyReplace s [c] r = s := by
  rw [pyReplace_single]
  apply flatMap_id_of_single
  intro x hx
  rw [if_neg (by rintro rfl; exact h hx)]

theorem mem_flatMap_quoteByte {safeE : List Nat} {bs : List Nat} {x : Nat}
    (hlt : ∀ b ∈ bs, b < 256) (hx : x ∈ bs.flatMap (quoteByte safeE)) :
    (∃ b ∈ bs, x = b ∧ (alwaysSafe b || safeE.contains b) = true)
    ∨ x = 37 ∨ (48 ≤ x ∧ x ≤ 57) ∨ (65 ≤ x ∧ x ≤ 70) := by
  rw [List.mem_flatMap] at hx
  obtain ⟨b, hb, hxq⟩ := hx
  unfold quoteByte at hxq
  by_cases hsafe : (alwaysSafe b || safeE.contains b) = true
  · rw [if_pos hsafe] at hxq
    simp at hxq
    exact Or.inl ⟨b, hb, hxq, hsafe⟩
  · rw [if_neg hsafe] at hxq
    simp at hxq
    have hblt := hlt b hb
    have hd1 : b / 16 < 16 := by omega
    have hd2 : b % 16 < 16 := by omega
    rcases hxq with hx | hx | hx
    · exact Or.inr (Or.inl hx)
    · subst hx
      unfold hexDigitU
      split_ifs <;> omega
    · subst hx
      unfold hexDigitU
      split_ifs <;> omega

theorem quote_chars_lt128 {safeE : List Nat} (hsE : ∀ x ∈ safeE, x < 128)
    {bs : List Nat} (hlt : ∀ b ∈ bs, b < 256) :
    ∀ x ∈ bs.flatMap (quoteByte safeE), x < 128 := by
  intro x hx
  rcases mem_flatMap_quoteByte hlt hx with ⟨b, _, hxb, hsafe⟩ | h37 | hd | hd
  · subst hxb
    rcases Bool.or_eq_true_iff.mp hsafe with h | h
    · unfold alwaysSafe at h
      rcases Bool.or_eq_true_iff.mp h with h | h
      · rcases Bool.or_eq_true_iff.mp h with h | h
        · unfold isAsciiAlpha at h
          have := of_decide_eq_true h
          omega
        · have := of_decide_eq_true h
          omega
      · have := of_decide_eq_true h
        omega
    · exact hsE _ (by simpa using h)
  · omega
  · omega
  · omega

theorem quote_not_mem {safeE : List Nat} {bs : List Nat} {x : Nat}
    (hlt : ∀ b ∈ bs, b < 256) (hxs : alwaysSafe x = false) (hxE : x ∉ safeE)
    (hx37 : x ≠ 37) (hxh : ¬((48 ≤ x ∧ x ≤ 57) ∨ (65 ≤ x ∧ x ≤ 70))) :
    x ∉ bs.flatMap (quoteByte safeE) := by
  intro hx
  rcases mem_flatMap_quoteByte hlt hx with ⟨b, _, hxb, hsafe⟩ | h37 | hd | hd
  · subst hxb
    rcases Bool.or_eq_true_iff.mp hsafe with h | h
    · rw [hxs] at h; exact Bool.false_ne_true h
    · exact hxE (by simpa using h)
  · exact hx37 h37
  · exact hxh (Or.inl hd)
  · exact hxh (Or.inr hd)

theorem utf8Encode_mem_lt128 {s : PyStr} {bs : List Nat}
    (h : utf8Encode s = Option.some bs) {b : Nat} (hb : b ∈ bs) (hlt : b < 128) :
    b ∈ s := by
  induction s generalizing bs with
  | nil => cases h; simp at hb
  | cons c t ih =>
    unfold utf8Encode at h
    cases hc : utf8EncodeChar c with
    | none => rw [hc] at h; simp at h
    | some bc =>
      rw [hc] at h
      cases ht : utf8Encode t with
      | none => rw [ht] at h; simp at h
      | some bt =>
        rw [ht] at h
        simp only [Option.some.injEq] at h
        subst h
        rcases List.mem_append.mp hb with hbc | hbt
        · unfold utf8EncodeChar at hc
          split_ifs at hc with h1 h2 h3 h4 h5 <;> cases hc <;> simp at hbc
          · rw [hbc]; exact List.mem_cons_self c t
          · rcases hbc with hb1 | hb1 <;> omega
          · rcases hbc with hb1 | hb1 | hb1 <;> omega
          · rcases hbc with hb1 | hb1 | hb1 | hb1 <;> omega
        · exact List.mem_cons_of_mem c (ih ht hbt)

theorem utf8Encode_all_ascii {s : PyStr} {bs : List Nat}
    (h : utf8Encode s = Option.some bs) (hsmall : ∀ c ∈ s, c < 128) : bs = s := by
  induction s generalizing bs with
  | nil => cases h; rfl
  | cons c t ih =>
    unfold utf8Encode at h
    cases hc : utf8EncodeChar c with
    | none => rw [hc] at h; simp at h
    | some bc =>
      rw [hc] at h
      cases ht : utf8Encode t with
      | none => rw [ht] at h; simp at h
      | some bt =>
        rw [ht] at h
        simp only [Option.some.injEq] at h
        subst h
        have hcs : c < 128 := hsmall c (List.mem_cons_self c t)
        have hbc : bc = [c] := by
          unfold utf8EncodeChar at hc
          rw [if_pos hcs] at hc
          exact (Option.some.injEq .. ▸ hc).symm
        rw [hbc, ih ht (fun x hx => hsmall x (List.mem_cons_of_mem c hx))]
        rfl

theorem unquoteRunsGo_ascii {s : PyStr} (hne : s ≠ []) (hascii : ∀ x ∈ s, x < 128)
    (fuel : Nat) : unquoteRunsGo (fuel + 1) s = utf8Decode (unquoteToBytes s) := by
  cases s with
  | nil => exact absurd rfl hne
  | cons c t =>
    simp only [unquoteRunsGo]
    have hc : c < 128 := hascii c (List.mem_cons_self c t)
    have hna : (c :: t).takeWhile (fun a => decide (128 ≤ a)) = [] := by
      rw [List.takeWhile_cons]
      rw [if_neg (by simp only [decide_eq_true_eq]; omega)]
    rw [hna]
    simp only [List.length_nil, List.drop_zero]
    have hta : (c :: t).takeWhile (fun a => decide (a < 128)) = c :: t := by
      apply List.takeWhile_eq_self_iff.mpr ?_
      intro x hx
      simpa using hascii x hx
    rw [hta]
    have hdrop : (c :: t).drop (c :: t).length = [] := List.drop_length _
    rw [hdrop]
    have hrest : unquoteRunsGo fuel [] = [] := by
      cases fuel with
      | zero => rfl
      | succ m => rfl
    rw [hrest, List.append_nil, List.nil_append]

theorem utf8Encode_bytes_lt :
    ∀ {s : PyStr} {bs : List Nat}, utf8Encode s = Option.some bs → ∀ b ∈ bs, b < 256 := by
  intro s
  induction s with
  | nil => intro bs h b hb; cases h; simp at hb
  | cons c t ih =>
    intro bs h b hb
    unfold utf8Encode at h
    cases hc : utf8EncodeChar c with
    | none => rw [hc] at h; simp at h
    | some bc =>
      rw [hc] at h
      cases ht : utf8Encode t with
      | none => rw [ht] at h; simp at h
      | some bt =>
        rw [ht] at h
        simp only [Option.some.injEq] at h
        subst h
        rcases List.mem_append.mp hb with hbc | hbt
        · exact utf8EncodeChar_bytes_lt hc b hbc
        · exact ih ht b hbt

theorem utf8Encode_big_byte :
    ∀ {s : PyStr} {bs : List Nat}, utf8Encode s = Option.some bs →
      ∀ {c : Nat}, c ∈ s → 128 ≤ c → ∃ b ∈ bs, 128 ≤ b := by
  intro s
  induction s with
  | nil => intro bs h c hc _; simp at hc
  | cons a t ih =>
    intro bs h c hc hbig
    unfold utf8Encode at h
    cases ha : utf8EncodeChar a with
    | none => rw [ha] at h; simp at h
    | some ba =>
      rw [ha] at h
      cases ht : utf8Encode t with
      | none => rw [ht] at h; simp at h
      | some bt =>
        rw [ht] at h
        simp only [Option.some.injEq] at h
        subst h
        rcases List.mem_cons.mp hc with he | hm
        · subst he
          unfold utf8EncodeChar at ha
          split_ifs at ha with h1 h2 h3 h4 h5 <;> cases ha
          · omega
          · exact ⟨0xC0 + c / 64, List.mem_append_left _ (by simp), by omega⟩
          · exact ⟨0xE0 + c / 4096, List.mem_append_left _ (by simp), by omega⟩
          · exact ⟨0xF0 + c / 262144, List.mem_append_left _ (by simp), by omega⟩
        · obtain ⟨b, hbm, hb⟩ := ih ht hm hbig
          exact ⟨b, List.mem_append_right _ hbm, hb⟩

theorem alwaysSafe_lt128 {b : Nat} (h : alwaysSafe b = true) : b < 128 := by
  unfold alwaysSafe at h
  rcases Bool.or_eq_true_iff.mp h with h | h
  · rcases Bool.or_eq_true_iff.mp h with h | h
    · unfold isAsciiAlpha at h
      have := of_decide_eq_true h
      omega
    · have := of_decide_eq_true h
      omega
  · have := of_decide_eq_true h
    omega

theorem pyUnquote_quote {v : PyStr} {bs : List Nat}
    (henc : utf8Encode v = Option.some bs) :
    pyUnquote (bs.flatMap (quoteByte [32])) = v := by
  have hlt : ∀ b ∈ bs, b < 256 := utf8Encode_bytes_lt henc
  unfold pyUnquote
  by_cases h37 : (bs.flatMap (quoteByte [32])).contains 37
  · rw [if_pos h37]
    have hne : bs.flatMap (quoteByte [32]) ≠ [] := by
      intro habs
      rw [habs] at h37
      simp at h37
    have hlen : (bs.flatMap (quoteByte [32])).length ≠ 0 := by
      intro h0
      exact hne (List.length_eq_zero.mp h0)
    obtain ⟨m, hm⟩ : ∃ m, (bs.flatMap (quoteByte [32])).length = m + 1 := by
      cases hl : (bs.flatMap (quoteByte [32])).length with
      | zero => exact absurd hl hlen
      | succ k => exact ⟨k, rfl⟩
    rw [hm, unquoteRunsGo_ascii hne (quote_chars_lt128 (by simp) hlt) m]
    rw [unquoteToBytes_quote [32] (by simp) bs hlt]
    exact utf8Encode_decode henc
  · rw [if_neg h37]
    have h37m : (37 : Nat) ∉ bs.flatMap (quoteByte [32]) := by
      intro hmem
      exact h37 (by simpa using hmem)
    have hallsafe : ∀ b ∈ bs, (alwaysSafe b || List.contains [32] b) = true := by
      intro b hb
      by_contra hno
      apply h37m
      rw [List.mem_flatMap]
      refine ⟨b, hb, ?_⟩
      unfold quoteByte
      rw [if_neg hno]
      simp
    have hid : bs.flatMap (quoteByte [32]) = bs := by
      apply flatMap_id_of_single
      intro b hb
      unfold quoteByte
      rw [if_pos (hallsafe b hb)]
    rw [hid]
    have hall128 : ∀ b ∈ bs, b < 128 := by
      intro b hb
      rcases Bool.or_eq_true_iff.mp (hallsafe b hb) with h | h
      · exact alwaysSafe_lt128 h
      · have : b ∈ [(32 : Nat)] := by simpa using h
        simp at this
        omega
    have hsmall : ∀ c ∈ v, c < 128 := by
      intro c hcv
      by_contra hbig
      obtain ⟨b, hbmem, hb128⟩ := utf8Encode_big_byte henc hcv (by omega)
      have := hall128 b hbmem
      omega
    exact utf8Encode_all_ascii henc hsmall

theorem flatMap_congr_mem {α β : Type} {s : List α} {f g : α → List β}
    (h : ∀ x ∈ s, f x = g x) : s.flatMap f = s.flatMap g := by
  induction s with
  | nil => rfl
  | cons a t ih =>
    rw [List.flatMap_cons, List.flatMap_cons, h a (List.mem_cons_self a t),
        ih (fun x hx => h x (List.mem_cons_of_mem a hx))]

theorem pyQuotePlus_eq {s ev : PyStr} (h : pyQuotePlus s = Option.some ev) :
    ∃ bs, utf8Encode s = Option.some bs
      ∧ ev = pyReplace (bs.flatMap (quoteByte [32])) [32] [43] := by
  unfold pyQuotePlus at h
  by_cases hsp : s.contains 32
  · rw [if_pos hsp] at h
    unfold pyQuote at h
    cases he : utf8Encode s with
    | none => rw [he] at h; simp at h
    | some bs =>
      rw [he] at h
      simp only [Option.map_some', Option.some.injEq] at h
      exact ⟨bs, rfl, h.symm⟩
  · rw [if_neg hsp] at h
    unfold pyQuote at h
    cases he : utf8Encode s with
    | none => rw [he] at h; simp at h
    | some bs =>
      rw [he] at h
      simp only [Option.map_some', Option.some.injEq] at h
      refine ⟨bs, rfl, ?_⟩
      have h32bs : (32 : Nat) ∉ bs := by
        intro hm
        exact hsp (by simpa using utf8Encode_mem_lt128 he hm (by omega))
      have hcongr : bs.flatMap (quoteByte [32]) = bs.flatMap (quoteByte []) := by
        apply flatMap_congr_mem
        intro b hb
        have hb32 : b ≠ 32 := fun habs => h32bs (habs ▸ hb)
        unfold quoteByte
        have hc : List.contains [32] b = List.contains ([] : List Nat) b := by
          simp [hb32]
        rw [hc]
      have h32X : (32 : Nat) ∉ bs.flatMap (quoteByte [32]) := by
        intro hm
        rcases mem_flatMap_quoteByte (utf8Encode_bytes_lt he) hm with
          ⟨b, hb, hxb, _⟩ | h1 | h1 | h1
        · exact h32bs (hxb ▸ hb)
        · omega
        · omega
        · omega
      rw [pyReplace_not_mem _ h32X, hcongr]
      exact h.symm

theorem quotePlus_roundtrip {v ev : PyStr} (h : pyQuotePlus v = Option.some ev) :
    pyUnquotePlus ev = v := by
  obtain ⟨bs, henc, hev⟩ := pyQuotePlus_eq h
  subst hev
  unfold pyUnquotePlus
  have h43 : (43 : Nat) ∉ bs.flatMap (quoteByte [32]) := by
    intro hm
    rcases mem_flatMap_quoteByte (utf8Encode_bytes_lt henc) hm with
      ⟨b, hb, hxb, hsafe⟩ | h1 | h1 | h1
    · rw [← hxb] at hsafe
      exact absurd hsafe (by decide)
    · omega
    · omega
    · omega
  have hrepl : pyReplace (pyReplace (bs.flatMap (quoteByte [32])) [32] [43]) [43] [32]
      = bs.flatMap (quoteByte [32]) := by
    rw [pyReplace_single, pyReplace_single, List.flatMap_assoc]
    apply flatMap_id_of_single
    intro x hx
    by_cases h32 : x = 32
    · subst h32
      simp
    · have hx43 : x ≠ 43 := fun he => h43 (he ▸ hx)
      simp [h32, hx43]
  rw [hrepl]
  exact pyUnquote_quote henc

theorem quotePlus_mem {v ev : PyStr} {x : Nat} (h : pyQuotePlus v = Option.some ev)
    (hx : x ∈ ev) : alwaysSafe x = true ∨ x = 43 ∨ x = 37 := by
  obtain ⟨bs, henc, hev⟩ := pyQuotePlus_eq h
  subst hev
  rw [pyReplace_single] at hx
  rw [List.mem_flatMap] at hx
  obtain ⟨y, hy, hxy⟩ := hx
  by_cases h32 : y = 32
  · rw [if_pos h32] at hxy
    right; left
    simpa using hxy
  · rw [if_neg h32] at hxy
    have hxeq : x = y := by simpa using hxy
    subst hxeq
    rcases mem_flatMap_quoteByte (utf8Encode_bytes_lt henc) hy with
      ⟨b, _, hyb, hsafe⟩ | h37 | hd | hd
    · subst hyb
      rcases Bool.or_eq_true_iff.mp hsafe with hs | hs
      · exact Or.inl hs
      · exact absurd (by simpa using hs) h32
    · exact Or.inr (Or.inr h37)
    · left; simp [alwaysSafe]; omega
    · left; simp [alwaysSafe, isAsciiAlpha]; omega

theorem quotePlus_not_mem {v ev : PyStr} {x : Nat} (h : pyQuotePlus v = Option.some ev)
    (hsafe : alwaysSafe x = false) (h43 : x ≠ 43) (h37 : x ≠ 37) : x ∉ ev := by
  intro hx
  rcases quotePlus_mem h hx with h1 | h1 | h1
  · rw [hsafe] at h1; exact Bool.false_ne_true h1
  · exact h43 h1
  · exact h37 h1

theorem qslItem_part {k v ke ve : PyStr} (hk : pyQuotePlus k = Option.some ke)
    (hv : pyQuotePlus v = Option.some ve) :
    qslItem (ke ++ 61 :: ve) = Option.some (k, v) := by
  unfold qslItem
  have h61 : (61 : Nat) ∉ ke := quotePlus_not_mem hk (by decide) (by decide) (by decide)
  have hne : ke ++ 61 :: ve ≠ [] := by simp
  rw [if_neg hne]
  have hsp : splitOnce 61 (ke ++ 61 :: ve) = Option.some (ke, ve) := by
    rw [splitOnce_append_left _ h61]
    have h0 : splitOnce 61 (61 :: ve) = Option.some ([], ve) := by
      simp [splitOnce]
    rw [h0]
    simp
  rw [hsp]
  show Option.some (pyUnquotePlus ke, pyUnquotePlus ve) = Option.some (k, v)
  rw [quotePlus_roundtrip hk, quotePlus_roundtrip hv]

theorem part_no_38 {k v ke ve : PyStr} (hk : pyQuotePlus k = Option.some ke)
    (hv : pyQuotePlus v = Option.some ve) : (38 : Nat) ∉ ke ++ 61 :: ve := by
  intro hm
  rcases List.mem_append.mp hm with h | h
  · exact quotePlus_not_mem hk (by decide) (by decide) (by decide) h
  · rcases List.mem_cons.mp h with h | h
    · exact absurd h (by decide)
    · exact quotePlus_not_mem hv (by decide) (by decide) (by decide) h

theorem urlencodeParts_sound {pairs : List (PyStr × PyStr)} {parts : List PyStr}
    (h : urlencodeParts pairs = Option.some parts) :
    parts.filterMap qslItem = pairs ∧ ∀ p ∈ parts, (38 : Nat) ∉ p ∧ p ≠ [] := by
  induction pairs generalizing parts with
  | nil =>
    unfold urlencodeParts at h
    cases h
    exact ⟨rfl, by intro p hp; cases hp⟩
  | cons kv rest ih =>
    obtain ⟨k, v⟩ := kv
    unfold urlencodeParts at h
    cases hk : pyQuotePlus k with
    | none => rw [hk] at h; cases h
    | some ke =>
      cases hv : pyQuotePlus v with
      | none => rw [hk, hv] at h; cases h
      | some ve =>
        cases hr : urlencodeParts rest with
        | none => rw [hk, hv, hr] at h; cases h
        | some rs =>
          rw [hk, hv, hr] at h
          cases h
          obtain ⟨ih1, ih2⟩ := ih hr
          constructor
          · rw [List.filterMap_cons]
            rw [qslItem_part hk hv, ih1]
          · intro p hp
            rcases List.mem_cons.mp hp with hp | hp
            · subst hp
              exact ⟨part_no_38 hk hv, by simp⟩
            · exact ih2 p hp

theorem intercalate_single (sep a : PyStr) : List.intercalate sep [a] = a := by
  simp [List.intercalate]

theorem intercalate_cons₂ (sep a b : PyStr) (t : List PyStr) :
    List.intercalate sep (a :: b :: t) = a ++ sep ++ List.intercalate sep (b :: t) := by
  simp [List.intercalate, List.intersperse]

theorem pySplit_intercalate {c : Nat} :
    ∀ {parts : List PyStr}, parts ≠ [] → (∀ p ∈ parts, c ∉ p) →
      pySplit c (List.intercalate [c] parts) = parts := by
  intro parts
  induction parts with
  | nil => intro h; exact absurd rfl h
  | cons a t ih =>
    intro _ hall
    cases t with
    | nil =>
      rw [intercalate_single]
      exact pySplit_no_sep (splitOnce_of_not_mem (hall a (by simp)))
    | cons b t2 =>
      rw [intercalate_cons₂]
      have hsp : splitOnce c (a ++ [c] ++ List.intercalate [c] (b :: t2)) =
          Option.some (a, List.intercalate [c] (b :: t2)) := by
        rw [List.append_assoc]
        rw [splitOnce_append_left _ (hall a (by simp))]
        have h0 : splitOnce c ([c] ++ List.intercalate [c] (b :: t2)) =
            Option.some ([], List.intercalate [c] (b :: t2)) := by
          simp [splitOnce]
        rw [h0]
        simp
      rw [pySplit_cons hsp]
      rw [ih (by simp) (fun p hp => hall p (by simp [hp]))]

theorem intercalate_parts_ne_nil {c : Nat} {parts : List PyStr} (hne : parts ≠ [])
    (hall : ∀ p ∈ parts, p ≠ []) : List.intercalate [c] parts ≠ [] := by
  cases parts with
  | nil => exact absurd rfl hne
  | cons a t =>
    cases t with
    | nil =>
      rw [intercalate_single]
      exact hall a (by simp)
    | cons b t2 =>
      rw [intercalate_cons₂]
      have := hall a (by simp)
      cases a with
      | nil => exact absurd rfl this
      | cons x xs => simp

theorem parse_qsl_urlencode {pairs : List (PyStr × PyStr)} {nq : PyStr}
    (hne : pairs ≠ []) (h : urlencode pairs = Option.some nq) :
    parse_qsl nq = pairs := by
  unfold urlencode at h
  cases hp : urlencodeParts pairs with
  | none => rw [hp] at h; cases h
  | some parts =>
    rw [hp] at h
    have hnq : nq = List.intercalate [38] parts := by
      simpa using h.symm
    obtain ⟨hfm, hfacts⟩ := urlencodeParts_sound hp
    have hpne : parts ≠ [] := by
      intro h0
      subst h0
      cases pairs with
      | nil => exact hne rfl
      | cons kv rest =>
        obtain ⟨k, v⟩ := kv
        unfold urlencodeParts at hp
        cases hk : pyQuotePlus k <;> rw [hk] at hp
        · cases hp
        · cases hv : pyQuotePlus v <;> rw [hv] at hp
          · cases hp
          · cases hr : urlencodeParts rest <;> rw [hr] at hp <;> cases hp
    have hnqne : nq ≠ [] := by
      rw [hnq]
      exact intercalate_parts_ne_nil hpne (fun p hp2 => (hfacts p hp2).2)
    unfold parse_qsl
    rw [if_neg hnqne, hnq,
        pySplit_intercalate hpne (fun p hp2 => (hfacts p hp2).1), hfm]

theorem splitOnce_none {c : Nat} {s : PyStr} (h : splitOnce c s = Option.none) : c ∉ s := by
  induction s with
  | nil => simp
  | cons a t ih =>
    simp only [splitOnce] at h
    by_cases hac : a = c
    · rw [if_pos hac] at h; cases h
    · rw [if_neg hac] at h
      cases hs : splitOnce c t with
      | none =>
        simp only [List.mem_cons, not_or]
        exact ⟨fun e => hac e.symm, ih hs⟩
      | some p => rw [hs] at h; cases h

theorem takeWhile_append_all {P : Nat → Bool} {A : PyStr} (B : PyStr)
    (h : ∀ x ∈ A, P x = true) :
    (A ++ B).takeWhile P = A ++ B.takeWhile P := by
  induction A with
  | nil => simp
  | cons a t ih =>
    have hstep : (a :: t) ++ B = a :: (t ++ B) := rfl
    rw [hstep, List.takeWhile_cons, if_pos (h a (by simp)), ih (fun x hx => h x (by simp [hx]))]
    rfl

theorem takeWhile_cons_false {P : Nat → Bool} {b : Nat} (t : PyStr) (h : P b = false) :
    (b :: t).takeWhile P = [] := by
  rw [List.takeWhile_cons, if_neg (by simp [h])]

theorem urlClean_eq_self {s : PyStr} (h1 : ∀ c ∈ s, c ≠ 9 ∧ c ≠ 10 ∧ c ≠ 13)
    (h2 : s = [] ∨ 32 < s.headD 0) : urlClean s = s := by
  unfold urlClean
  have hdrop : s.dropWhile (fun c => decide (c ≤ 32)) = s := by
    cases s with
    | nil => rfl
    | cons a t =>
      rcases h2 with h2 | h2
      · cases h2
      · rw [List.dropWhile_cons, if_neg]
        simp only [List.headD_cons] at h2
        simp
        omega
  rw [hdrop]
  exact List.filter_eq_self.mpr (fun c hc => by
    obtain ⟨ha, hb, hcc⟩ := h1 c hc
    simp [ha, hb, hcc])

theorem pyLower_idem (s : PyStr) : pyLower (pyLower s) = pyLower s := by
  unfold pyLower
  rw [List.map_map]
  apply List.map_congr_left
  intro c _
  simp only [Function.comp_apply]
  by_cases h : 65 ≤ c ∧ c ≤ 90
  · rw [if_pos h, if_neg (by omega)]
  · rw [if_neg h, if_neg h]

theorem pyLower_schemeChar {c : Nat} (h : schemeChar c = true) :
    schemeChar (if 65 ≤ c ∧ c ≤ 90 then c + 32 else c) = true := by
  by_cases hc : 65 ≤ c ∧ c ≤ 90
  · rw [if_pos hc]
    simp [schemeChar, isAsciiAlpha]
    omega
  · rw [if_neg hc]
    exact h

theorem pyLower_alpha {c : Nat} (h : isAsciiAlpha c = true) :
    isAsciiAlpha (if 65 ≤ c ∧ c ≤ 90 then c + 32 else c) = true := by
  simp only [isAsciiAlpha, decide_eq_true_eq] at h ⊢
  split_ifs <;> omega

theorem schemeSplit_eq_none {url : PyStr} (h : splitOnce 58 url = Option.none) :
    schemeSplit url = ([], url) := by
  unfold schemeSplit
  rw [h]

theorem schemeSplit_eq_some {url pre post : PyStr} (h : splitOnce 58 url = Option.some (pre, post)) :
    schemeSplit url =
      if pre ≠ [] ∧ isAsciiAlpha (pre.headD 0) = true ∧ pre.all schemeChar = true then
        (pyLower pre, post)
      else ([], url) := by
  unfold schemeSplit
  rw [h]

theorem schemeSplit_fst (url : PyStr) :
    (schemeSplit url).1 = [] ∨
      ((schemeSplit url).1 ≠ [] ∧ isAsciiAlpha ((schemeSplit url).1.headD 0) = true ∧
       (schemeSplit url).1.all schemeChar = true ∧
       pyLower (schemeSplit url).1 = (schemeSplit url).1) := by
  cases hsp : splitOnce 58 url with
  | none => rw [schemeSplit_eq_none hsp]; left; rfl
  | some p =>
    obtain ⟨pre, post⟩ := p
    rw [schemeSplit_eq_some hsp]
    by_cases hc : pre ≠ [] ∧ isAsciiAlpha (pre.headD 0) = true ∧ pre.all schemeChar = true
    · rw [if_pos hc]
      right
      obtain ⟨h1, h2, h3⟩ := hc
      cases pre with
      | nil => exact absurd rfl h1
      | cons a t =>
        refine ⟨by simp [pyLower], ?_, ?_, ?_⟩
        · simp only [pyLower, List.map_cons, List.headD_cons]
          simp only [List.headD_cons] at h2
          exact pyLower_alpha h2
        · simp only [pyLower, List.all_map]
          rw [List.all_eq_true] at h3 ⊢
          intro x hx
          exact pyLower_schemeChar (h3 x hx)
        · exact pyLower_idem (a :: t)
    · rw [if_neg hc]
      left; rfl

theorem schemeSplit_snd_mem {url : PyStr} {c : Nat} (h : c ∈ (schemeSplit url).2) :
    c ∈ url := by
  cases hsp : splitOnce 58 url with
  | none => rw [schemeSplit_eq_none hsp] at h; exact h
  | some p =>
    obtain ⟨pre, post⟩ := p
    rw [schemeSplit_eq_some hsp] at h
    by_cases hc : pre ≠ [] ∧ isAsciiAlpha (pre.headD 0) = true ∧ pre.all schemeChar = true
    · rw [if_pos hc] at h
      rw [(splitOnce_sound hsp).1]
      simp only at h
      simp [h]
    · rw [if_neg hc] at h
      exact h

theorem schemeSplit_head_not_alpha {url : PyStr} (h : isAsciiAlpha (url.headD 0) = false) :
    schemeSplit url = ([], url) := by
  cases hsp : splitOnce 58 url with
  | none => exact schemeSplit_eq_none hsp
  | some p =>
    obtain ⟨pre, post⟩ := p
    rw [schemeSplit_eq_some hsp]
    rw [if_neg]
    rintro ⟨h1, h2, _⟩
    obtain hdec := (splitOnce_sound hsp).1
    cases pre with
    | nil => exact h1 rfl
    | cons a t =>
      rw [hdec] at h
      simp only [List.cons_append, List.headD_cons] at h h2
      rw [h] at h2
      exact Bool.false_ne_true h2

theorem schemeChar_ne_58 {c : Nat} (h : schemeChar c = true) : c ≠ 58 := by
  intro he
  subst he
  exact absurd h (by decide)

theorem schemeSplit_rebuild {sch : PyStr} (T : PyStr) (hne : sch ≠ [])
    (ha : isAsciiAlpha (sch.headD 0) = true) (hall : sch.all schemeChar = true)
    (hlow : pyLower sch = sch) :
    schemeSplit (sch ++ 58 :: T) = (sch, T) := by
  have h58 : (58 : Nat) ∉ sch := by
    intro hm
    exact schemeChar_ne_58 (List.all_eq_true.mp hall 58 hm) rfl
  have h0 : splitOnce 58 (58 :: T) = Option.some ([], T) := by
    simp [splitOnce]
  have hsp : splitOnce 58 (sch ++ 58 :: T) = Option.some (sch, T) := by
    rw [splitOnce_append_left _ h58, h0]
    simp
  rw [schemeSplit_eq_some hsp, if_pos ⟨hne, ha, hall⟩, hlow]

theorem drop_takeWhile_length (P : Nat → Bool) (l : PyStr) :
    l.drop (l.takeWhile P).length = l.dropWhile P := by
  induction l with
  | nil => rfl
  | cons a t ih =>
    rw [List.takeWhile_cons, List.dropWhile_cons]
    by_cases h : P a = true
    · rw [if_pos h, if_pos h]
      simpa using ih
    · rw [if_neg h, if_neg h]
      rfl

theorem dropWhile_head_false (P : Nat → Bool) (l : PyStr) :
    l.dropWhile P = [] ∨ P ((l.dropWhile P).headD 0) = false := by
  induction l with
  | nil => left; rfl
  | cons a t ih =>
    rw [List.dropWhile_cons]
    by_cases h : P a = true
    · rw [if_pos h]; exact ih
    · rw [if_neg h]
      right
      simp only [List.headD_cons]
      exact Bool.not_eq_true _ |>.mp h

theorem urlClean_mem {s : PyStr} {c : Nat} (h : c ∈ urlClean s) :
    c ≠ 9 ∧ c ≠ 10 ∧ c ≠ 13 := by
  unfold urlClean at h
  rw [List.mem_filter] at h
  have h2 := h.2
  simp only [decide_eq_true_eq] at h2
  exact h2

theorem splitFragQuery_nil : splitFragQuery [] = ([], [], []) := rfl

theorem splitFragQuery_mem {url : PyStr} {c : Nat} :
    (c ∈ (splitFragQuery url).1 → c ∈ url) ∧
    (c ∈ (splitFragQuery url).2.1 → c ∈ url) ∧
    (c ∈ (splitFragQuery url).2.2 → c ∈ url) := by
  cases h35 : splitOnce 35 url with
  | none =>
    cases h63 : splitOnce 63 url with
    | none =>
      simp only [splitFragQuery, h35, h63]
      exact ⟨id, fun h => absurd h (List.not_mem_nil c), fun h => absurd h (List.not_mem_nil c)⟩
    | some q =>
      obtain ⟨a, b⟩ := q
      simp only [splitFragQuery, h35, h63]
      have hdec := (splitOnce_sound h63).1
      refine ⟨fun h => ?_, fun h => ?_, fun h => absurd h (List.not_mem_nil c)⟩
      · rw [hdec]; simp [h]
      · rw [hdec]; simp [h]
  | some p =>
    obtain ⟨a3, b3⟩ := p
    have hdec3 := (splitOnce_sound h35).1
    cases h63 : splitOnce 63 a3 with
    | none =>
      simp only [splitFragQuery, h35, h63]
      refine ⟨fun h => ?_, fun h => absurd h (List.not_mem_nil c), fun h => ?_⟩
      · rw [hdec3]; simp [h]
      · rw [hdec3]; simp [h]
    | some q =>
      obtain ⟨a, b⟩ := q
      have hdec := (splitOnce_sound h63).1
      simp only [splitFragQuery, h35, h63]
      refine ⟨fun h => ?_, fun h => ?_, fun h => ?_⟩
      · rw [hdec3, hdec]; simp [h]
      · rw [hdec3, hdec]; simp [h]
      · rw [hdec3]; simp [h]

theorem splitFragQuery_path_free (url : PyStr) :
    (63 : Nat) ∉ (splitFragQuery url).1 ∧ (35 : Nat) ∉ (splitFragQuery url).1 := by
  cases h35 : splitOnce 35 url with
  | none =>
    have hu35 : (35 : Nat) ∉ url := splitOnce_none h35
    cases h63 : splitOnce 63 url with
    | none =>
      simp only [splitFragQuery, h35, h63]
      exact ⟨splitOnce_none h63, hu35⟩
    | some q =>
      obtain ⟨a, b⟩ := q
      simp only [splitFragQuery, h35, h63]
      refine ⟨(splitOnce_sound h63).2, fun h => hu35 ?_⟩
      rw [(splitOnce_sound h63).1]
      simp [h]
  | some p =>
    obtain ⟨a3, b3⟩ := p
    have ha35 : (35 : Nat) ∉ a3 := (splitOnce_sound h35).2
    cases h63 : splitOnce 63 a3 with
    | none =>
      simp only [splitFragQuery, h35, h63]
      exact ⟨splitOnce_none h63, ha35⟩
    | some q =>
      obtain ⟨a, b⟩ := q
      simp only [splitFragQuery, h35, h63]
      refine ⟨(splitOnce_sound h63).2, fun h => ha35 ?_⟩
      rw [(splitOnce_sound h63).1]
      simp [h]

theorem splitFragQuery_path_prefix (url : PyStr) :
    (splitFragQuery url).1 <+: url := by
  cases h35 : splitOnce 35 url with
  | none =>
    cases h63 : splitOnce 63 url with
    | none => simp only [splitFragQuery, h35, h63]; exact List.prefix_refl url
    | some q =>
      obtain ⟨a, b⟩ := q
      simp only [splitFragQuery, h35, h63]
      exact ⟨63 :: b, ((splitOnce_sound h63).1).symm⟩
  | some p =>
    obtain ⟨a3, b3⟩ := p
    have hpre3 : a3 <+: url := ⟨35 :: b3, ((splitOnce_sound h35).1).symm⟩
    cases h63 : splitOnce 63 a3 with
    | none => simp only [splitFragQuery, h35, h63]; exact hpre3
    | some q =>
      obtain ⟨a, b⟩ := q
      simp only [splitFragQuery, h35, h63]
      exact List.IsPrefix.trans ⟨63 :: b, ((splitOnce_sound h63).1).symm⟩ hpre3

theorem splitFragQuery_rebuild_noFrag {P nq : PyStr} (hP63 : (63 : Nat) ∉ P)
    (hP35 : (35 : Nat) ∉ P) (hq35 : (35 : Nat) ∉ nq) :
    splitFragQuery (P ++ 63 :: nq) = (P, nq, []) := by
  have h35 : splitOnce 35 (P ++ 63 :: nq) = Option.none := by
    apply splitOnce_of_not_mem
    simp only [List.mem_append, List.mem_cons, not_or]
    exact ⟨hP35, by omega, hq35⟩
  have h0 : splitOnce 63 (63 :: nq) = Option.some ([], nq) := by
    simp [splitOnce]
  have h63 : splitOnce 63 (P ++ 63 :: nq) = Option.some (P, nq) := by
    rw [splitOnce_append_left _ hP63, h0]
    simp
  simp only [splitFragQuery, h35, h63]

theorem splitFragQuery_rebuild_frag {P nq fr : PyStr} (hP63 : (63 : Nat) ∉ P)
    (hP35 : (35 : Nat) ∉ P) (hq35 : (35 : Nat) ∉ nq) :
    splitFragQuery ((P ++ 63 :: nq) ++ 35 :: fr) = (P, nq, fr) := by
  have hpre35 : (35 : Nat) ∉ P ++ 63 :: nq := by
    simp only [List.mem_append, List.mem_cons, not_or]
    exact ⟨hP35, by omega, hq35⟩
  have h00 : splitOnce 35 (35 :: fr) = Option.some ([], fr) := by
    simp [splitOnce]
  have h35 : splitOnce 35 ((P ++ 63 :: nq) ++ 35 :: fr) =
      Option.some (P ++ 63 :: nq, fr) := by
    rw [splitOnce_append_left _ hpre35, h00]
    simp
  have h0 : splitOnce 63 (63 :: nq) = Option.some ([], nq) := by
    simp [splitOnce]
  have h63 : splitOnce 63 (P ++ 63 :: nq) = Option.some (P, nq) := by
    rw [splitOnce_append_left _ hP63, h0]
    simp
  simp only [splitFragQuery, h35, h63]

theorem urlsplit_ok_cases {u : PyStr} {s : UrlSplit} (h : urlsplit u = Except.ok s) :
    ∃ nr : PyStr × PyStr,
      nr = (if (schemeSplit (urlClean u)).2.take 2 = [47, 47]
            then splitnetloc (schemeSplit (urlClean u)).2
            else ([], (schemeSplit (urlClean u)).2)) ∧
      ((nr.1.contains 91 && !nr.1.contains 93) ||
       (nr.1.contains 93 && !nr.1.contains 91)) = false ∧
      s = ⟨(schemeSplit (urlClean u)).1, nr.1, (splitFragQuery nr.2).1,
           (splitFragQuery nr.2).2.1, (splitFragQuery nr.2).2.2⟩ := by
  simp only [urlsplit] at h
  refine ⟨(if (schemeSplit (urlClean u)).2.take 2 = [47, 47]
            then splitnetloc (schemeSplit (urlClean u)).2
            else ([], (schemeSplit (urlClean u)).2)), rfl, ?_⟩
  set nr := (if (schemeSplit (urlClean u)).2.take 2 = [47, 47]
            then splitnetloc (schemeSplit (urlClean u)).2
            else ([], (schemeSplit (urlClean u)).2)) with hnr
  split at h
  · exact absurd h (by simp)
  · next hbr =>
    refine ⟨Bool.not_eq_true _ |>.mp hbr, ?_⟩
    exact ((Except.ok.injEq _ _).mp h).symm

theorem urlsplit_ok_props {u : PyStr} {s : UrlSplit} (h : urlsplit u = Except.ok s) :
    (s.scheme = [] ∨ (s.scheme ≠ [] ∧ isAsciiAlpha (s.scheme.headD 0) = true ∧
      s.scheme.all schemeChar = true ∧ pyLower s.scheme = s.scheme)) ∧
    (∀ c ∈ s.netloc, c ≠ 47 ∧ c ≠ 63 ∧ c ≠ 35) ∧
    (∀ c ∈ s.netloc, c ≠ 9 ∧ c ≠ 10 ∧ c ≠ 13) ∧
    ((s.netloc.contains 91 && !s.netloc.contains 93) ||
      (s.netloc.contains 93 && !s.netloc.contains 91)) = false ∧
    ((63 : Nat) ∉ s.path ∧ (35 : Nat) ∉ s.path) ∧
    (∀ c ∈ s.path, c ≠ 9 ∧ c ≠ 10 ∧ c ≠ 13) ∧
    (∀ c ∈ s.fragment, c ≠ 9 ∧ c ≠ 10 ∧ c ≠ 13) ∧
    (s.netloc ≠ [] → s.path = [] ∨ s.path.take 1 = [47]) := by
  obtain ⟨nr, hnr, hbr, hs⟩ := urlsplit_ok_cases h
  have hn2mem : ∀ c ∈ nr.2, c ∈ urlClean u := by
    intro c hc
    by_cases ht2 : (schemeSplit (urlClean u)).2.take 2 = [47, 47]
    · rw [if_pos ht2] at hnr
      rw [hnr] at hc
      simp only [splitnetloc] at hc
      exact schemeSplit_snd_mem (List.drop_subset 2 _ (List.drop_subset _ _ hc))
    · rw [if_neg ht2] at hnr
      rw [hnr] at hc
      exact schemeSplit_snd_mem hc
  have hn1memK : ∀ c ∈ nr.1, (c ≠ 47 ∧ c ≠ 63 ∧ c ≠ 35) ∧ c ∈ urlClean u := by
    intro c hc
    by_cases ht2 : (schemeSplit (urlClean u)).2.take 2 = [47, 47]
    · rw [if_pos ht2] at hnr
      rw [hnr] at hc
      simp only [splitnetloc] at hc
      constructor
      · have := List.mem_takeWhile_imp hc
        simpa using this
      · exact schemeSplit_snd_mem
          (List.drop_subset 2 _ ((List.takeWhile_prefix _).subset hc))
    · rw [if_neg ht2] at hnr
      rw [hnr] at hc
      cases hc
  have hn2head : nr.1 ≠ [] →
      nr.2 = [] ∨ nr.2.headD 0 = 47 ∨ nr.2.headD 0 = 63 ∨ nr.2.headD 0 = 35 := by
    intro hne
    by_cases ht2 : (schemeSplit (urlClean u)).2.take 2 = [47, 47]
    · rw [if_pos ht2] at hnr
      rw [hnr]
      simp only [splitnetloc]
      rw [drop_takeWhile_length]
      rcases dropWhile_head_false
          (fun c => decide (c ≠ 47 ∧ c ≠ 63 ∧ c ≠ 35))
          ((schemeSplit (urlClean u)).2.drop 2) with h0 | h0
      · exact Or.inl h0
      · right
        simp only [decide_eq_false_iff_not] at h0
        omega
    · rw [if_neg ht2] at hnr
      rw [hnr] at hne
      exact absurd rfl hne
  subst hs
  dsimp only
  refine ⟨schemeSplit_fst _, fun c hc => (hn1memK c hc).1,
    fun c hc => urlClean_mem (hn1memK c hc).2, hbr, splitFragQuery_path_free _,
    ?_, ?_, ?_⟩
  · intro c hc
    exact urlClean_mem (hn2mem c (splitFragQuery_mem.1 hc))
  · intro c hc
    exact urlClean_mem (hn2mem c (splitFragQuery_mem.2.2 hc))
  · intro hne
    cases hP : (splitFragQuery nr.2).1 with
    | nil => exact Or.inl rfl
    | cons p0 pt =>
      right
      obtain ⟨tl, hpre⟩ := splitFragQuery_path_prefix nr.2
      rw [hP] at hpre
      have hfree := splitFragQuery_path_free nr.2
      rw [hP] at hfree
      have hp063 : p0 ≠ 63 := fun he => hfree.1 (he ▸ List.mem_cons_self p0 pt)
      have hp035 : p0 ≠ 35 := fun he => hfree.2 (he ▸ List.mem_cons_self p0 pt)
      rcases hn2head hne with h0 | h0
      · rw [h0] at hpre
        cases hpre
      · have hhead : nr.2.headD 0 = p0 := by
          rw [← hpre]
          rfl
        rw [hhead] at h0
        have hp047 : p0 = 47 := by omega
        rw [hp047]
        rfl

theorem schemeChar_clean {c : Nat} (h : schemeChar c = true) :
    c ≠ 9 ∧ c ≠ 10 ∧ c ≠ 13 := by
  simp only [schemeChar, isAsciiAlpha, Bool.or_eq_true, decide_eq_true_eq] at h
  omega

set_option maxHeartbeats 1000000 in
theorem urlsplit_rebuild_core {sch nl P nq fr : PyStr}
    (hsch : sch = [] ∨ (sch ≠ [] ∧ isAsciiAlpha (sch.headD 0) = true ∧
      sch.all schemeChar = true ∧ pyLower sch = sch))
    (hn : nl ≠ [])
    (hnetK : ∀ c ∈ nl, c ≠ 47 ∧ c ≠ 63 ∧ c ≠ 35)
    (hnetC : ∀ c ∈ nl, c ≠ 9 ∧ c ≠ 10 ∧ c ≠ 13)
    (hbr : ((nl.contains 91 && !nl.contains 93) ||
            (nl.contains 93 && !nl.contains 91)) = false)
    (hp63 : (63 : Nat) ∉ P) (hp35 : (35 : Nat) ∉ P)
    (hpc : ∀ c ∈ P, c ≠ 9 ∧ c ≠ 10 ∧ c ≠ 13)
    (hfc : ∀ c ∈ fr, c ≠ 9 ∧ c ≠ 10 ∧ c ≠ 13)
    (hph : P = [] ∨ P.take 1 = [47])
    (hq35 : (35 : Nat) ∉ nq) (hqc : ∀ c ∈ nq, c ≠ 9 ∧ c ≠ 10 ∧ c ≠ 13)
    (hqne : nq ≠ []) :
    urlsplit (urlunsplit sch nl P nq fr) = Except.ok ⟨sch, nl, P, nq, fr⟩ := by
  have hP47 : (if P ≠ [] ∧ P.take 1 ≠ [47] then 47 :: P else P) = P := by
    rcases hph with h0 | h0
    · rw [h0]
      simp
    · rw [if_neg]
      rintro ⟨_, hne47⟩
      exact hne47 h0
  have hR : urlunsplit sch nl P nq fr =
      ((if sch ≠ [] then sch ++ 58 :: ([47, 47] ++ nl ++ P)
        else [47, 47] ++ nl ++ P) ++ 63 :: nq) ++
        (if fr ≠ [] then 35 :: fr else []) := by
    simp only [urlunsplit]
    rw [if_pos (Or.inl hn), hP47, if_pos hqne]
    by_cases hf : fr ≠ []
    · rw [if_pos hf, if_pos hf]
    · rw [if_neg hf, if_neg hf, List.append_nil]
  have hKnl : ∀ x ∈ nl, (fun c => decide (c ≠ 47 ∧ c ≠ 63 ∧ c ≠ 35)) x = true := by
    intro x hx
    simpa using hnetK x hx
  have htail0 : ∀ F : PyStr, ((P ++ 63 :: nq) ++ F).takeWhile
      (fun c => decide (c ≠ 47 ∧ c ≠ 63 ∧ c ≠ 35)) = [] := by
    intro F
    rcases hph with h0 | h0
    · subst h0
      rw [List.nil_append, List.cons_append]
      exact takeWhile_cons_false _ (by decide)
    · cases P with
      | nil => simp at h0
      | cons p0 pt =>
        have hp0 : p0 = 47 := by simpa using h0
        subst hp0
        rw [List.cons_append, List.cons_append]
        exact takeWhile_cons_false _ (by decide)
  have hsn : ∀ F : PyStr, splitnetloc (47 :: 47 :: (nl ++ ((P ++ 63 :: nq) ++ F)))
      = (nl, (P ++ 63 :: nq) ++ F) := by
    intro F
    simp only [splitnetloc]
    have hd2 : (47 :: 47 :: (nl ++ ((P ++ 63 :: nq) ++ F))).drop 2
        = nl ++ ((P ++ 63 :: nq) ++ F) := rfl
    rw [hd2, takeWhile_append_all _ hKnl, htail0 F, List.append_nil, List.drop_left]
  have hbrne : ¬(((nl.contains 91 && !nl.contains 93) ||
      (nl.contains 93 && !nl.contains 91)) = true) := by
    rw [hbr]
    exact Bool.false_ne_true
  have hTclean : ∀ (F : PyStr), (∀ c ∈ F, c ≠ 9 ∧ c ≠ 10 ∧ c ≠ 13) →
      ∀ c ∈ 47 :: 47 :: (nl ++ ((P ++ 63 :: nq) ++ F)), c ≠ 9 ∧ c ≠ 10 ∧ c ≠ 13 := by
    intro F hF c hc
    simp only [List.mem_cons, List.mem_append] at hc
    rcases hc with h0 | h0 | h0 | (h0 | h0 | h0) | h0
    · omega
    · omega
    · exact hnetC c h0
    · exact hpc c h0
    · omega
    · exact hqc c h0
    · exact hF c h0
  have hFclean : ∀ c ∈ (if fr ≠ [] then 35 :: fr else ([] : PyStr)),
      c ≠ 9 ∧ c ≠ 10 ∧ c ≠ 13 := by
    intro c hc
    by_cases hf : fr ≠ []
    · rw [if_pos hf] at hc
      rcases List.mem_cons.mp hc with h0 | h0
      · omega
      · exact hfc c h0
    · rw [if_neg hf] at hc
      cases hc
  set F := (if fr ≠ [] then 35 :: fr else ([] : PyStr)) with hF
  have hsfq : splitFragQuery ((P ++ 63 :: nq) ++ F) = (P, nq, fr) := by
    by_cases hf : fr ≠ []
    · rw [hF, if_pos hf]
      exact splitFragQuery_rebuild_frag hp63 hp35 hq35
    · rw [hF, if_neg hf, List.append_nil,
          splitFragQuery_rebuild_noFrag hp63 hp35 hq35, not_not.mp hf]
  have hshape : ((if sch ≠ [] then sch ++ 58 :: ([47, 47] ++ nl ++ P)
        else [47, 47] ++ nl ++ P) ++ 63 :: nq) ++ F =
      (if sch ≠ [] then sch ++ 58 :: (47 :: 47 :: (nl ++ ((P ++ 63 :: nq) ++ F)))
        else 47 :: 47 :: (nl ++ ((P ++ 63 :: nq) ++ F))) := by
    by_cases hs0 : sch ≠ []
    · rw [if_pos hs0, if_pos hs0]
      simp [List.append_assoc]
    · rw [if_neg hs0, if_neg hs0]
      simp [List.append_assoc]
  have ht2 : List.take 2 (47 :: 47 :: (nl ++ ((P ++ 63 :: nq) ++ F))) = [47, 47] := rfl
  rw [hR, hshape]
  by_cases hs0 : sch = []
  · rw [if_neg (by simp [hs0])]
    have hcc : urlClean (47 :: 47 :: (nl ++ ((P ++ 63 :: nq) ++ F))) =
        47 :: 47 :: (nl ++ ((P ++ 63 :: nq) ++ F)) := by
      apply urlClean_eq_self (hTclean F hFclean)
      right
      show (32 : Nat) < 47
      omega
    have hss : schemeSplit (47 :: 47 :: (nl ++ ((P ++ 63 :: nq) ++ F))) =
        ([], 47 :: 47 :: (nl ++ ((P ++ 63 :: nq) ++ F))) := by
      apply schemeSplit_head_not_alpha
      rfl
    simp only [urlsplit]
    rw [hcc, hss]
    dsimp only
    rw [if_pos ht2, hsn F]
    dsimp only
    rw [if_neg hbrne, hsfq]
    rw [hs0]
  · rcases hsch with h0 | ⟨_, ha, hall, hlow⟩
    · exact absurd h0 hs0
    rw [if_pos hs0]
    have hcc : urlClean (sch ++ 58 :: (47 :: 47 :: (nl ++ ((P ++ 63 :: nq) ++ F)))) =
        sch ++ 58 :: (47 :: 47 :: (nl ++ ((P ++ 63 :: nq) ++ F))) := by
      apply urlClean_eq_self
      · intro c hc
        rcases List.mem_append.mp hc with h1 | h1
        · exact schemeChar_clean (List.all_eq_true.mp hall c h1)
        · rcases List.mem_cons.mp h1 with h2 | h2
          · omega
          · exact hTclean F hFclean c h2
      · right
        cases sch with
        | nil => exact absurd rfl hs0
        | cons a t =>
          simp only [List.cons_append, List.headD_cons]
          simp only [List.headD_cons] at ha
          simp only [isAsciiAlpha, decide_eq_true_eq] at ha
          omega
    have hss : schemeSplit (sch ++ 58 :: (47 :: 47 :: (nl ++ ((P ++ 63 :: nq) ++ F)))) =
        (sch, 47 :: 47 :: (nl ++ ((P ++ 63 :: nq) ++ F))) :=
      schemeSplit_rebuild _ hs0 ha hall hlow
    simp only [urlsplit]
    rw [hcc, hss]
    dsimp only
    rw [if_pos ht2, hsn F]
    dsimp only
    rw [if_neg hbrne, hsfq]

theorem contains_true_iff {l : PyStr} {a : Nat} : l.contains a = true ↔ a ∈ l := by
  simp

theorem afterLastSlash_not_mem (x : PyStr) : (47 : Nat) ∉ afterLastSlash x := by
  intro h
  unfold afterLastSlash at h
  rw [List.mem_reverse] at h
  have := List.mem_takeWhile_imp h
  simp at this

theorem afterLastSlash_append {c d : PyStr} (hd : (47 : Nat) ∉ d) :
    afterLastSlash (c ++ 47 :: d) = d := by
  unfold afterLastSlash
  rw [List.reverse_append]
  have h1 : (47 :: d).reverse = d.reverse ++ [47] := by simp
  rw [h1, List.append_assoc]
  rw [takeWhile_append_all _ (fun x hx => by
    simp only [decide_eq_true_eq]
    intro he
    exact hd (by rw [← he]; exact List.mem_reverse.mp hx))]
  have h2 : (([47] ++ c.reverse).takeWhile (fun c => decide (c ≠ 47))) = [] :=
    takeWhile_cons_false _ (by decide)
  rw [h2, List.append_nil, List.reverse_reverse]

theorem afterLastSlash_split (x : PyStr) :
    ∃ A, x = A ++ afterLastSlash x ∧
      x.take (x.length - (afterLastSlash x).length) = A ∧
      (A = [] ∨ ∃ A2, A = A2 ++ [47]) := by
  have hx0 : x = (x.reverse.dropWhile (fun c => decide (c ≠ 47))).reverse ++
      afterLastSlash x := by
    unfold afterLastSlash
    have h1 := congrArg List.reverse
      (List.takeWhile_append_dropWhile (fun c => decide (c ≠ 47)) x.reverse)
    rw [List.reverse_append, List.reverse_reverse] at h1
    exact h1.symm
  refine ⟨(x.reverse.dropWhile (fun c => decide (c ≠ 47))).reverse, hx0, ?_, ?_⟩
  · set B := afterLastSlash x with hB
    set A := (x.reverse.dropWhile (fun c => decide (c ≠ 47))).reverse with hA
    rw [hx0, List.length_append, Nat.add_sub_cancel]
    exact List.take_left A B
  · cases hdw : x.reverse.dropWhile (fun c => decide (c ≠ 47)) with
    | nil => left; rfl
    | cons a t =>
      right
      have ha : a = 47 := by
        rcases dropWhile_head_false (fun c => decide (c ≠ 47)) x.reverse with h0 | h0
        · rw [hdw] at h0; cases h0
        · rw [hdw] at h0
          simp only [List.headD_cons, decide_eq_false_iff_not, not_not] at h0
          exact h0
      refine ⟨t.reverse, ?_⟩
      rw [List.reverse_cons, ha]

theorem splitparams_spec {x p q : PyStr} (h : splitparams x = (p, q)) :
    ((q = [] ∧ p = x) ∨ x = p ++ 59 :: q) ∧
    (q = [] → p.contains 59 = false ∨ splitparams p = (p, [])) := by
  simp only [splitparams] at h
  by_cases h47 : x.contains 47 = true
  · rw [if_pos h47] at h
    obtain ⟨A, hx, htake, hA47⟩ := afterLastSlash_split x
    cases hsp : splitOnce 59 (afterLastSlash x) with
    | none =>
      rw [hsp] at h
      have h2 : (x, ([] : PyStr)) = (p, q) := h
      injection h2 with h2a h2b
      refine ⟨Or.inl ⟨h2b.symm, h2a.symm⟩, fun _ => Or.inr ?_⟩
      rw [← h2a]
      simp only [splitparams]
      rw [if_pos h47, hsp]
    | some bp =>
      obtain ⟨b1, b2⟩ := bp
      rw [hsp] at h
      have h2 : (x.take (x.length - (afterLastSlash x).length) ++ b1, b2) = (p, q) := h
      injection h2 with h2a h2b
      rw [htake] at h2a
      have hb := (splitOnce_sound hsp).1
      have hxfull : x = (A ++ b1) ++ 59 :: b2 := by
        rw [hx, hb]
        simp [List.append_assoc]
      have h59b1 : (59 : Nat) ∉ b1 := (splitOnce_sound hsp).2
      have h47b1 : (47 : Nat) ∉ b1 := by
        intro hm
        exact afterLastSlash_not_mem x (by rw [hb]; simp [hm])
      constructor
      · right
        rw [← h2a, ← h2b]
        exact hxfull
      · intro hq
        right
        rw [← h2a]
        have hb2 : b2 = [] := by rw [h2b, hq]
        rcases hA47 with hA | ⟨A2, hA2⟩
        · -- A = []: then x = b1 ++ [59], yet 47 ∈ x while 47 ∉ b1 — impossible.
          exfalso
          have hmem := contains_true_iff.mp h47
          rw [hxfull, hA, hb2] at hmem
          simp only [List.nil_append, List.mem_append, List.mem_cons,
            List.not_mem_nil] at hmem
          rcases hmem with hm | hm | hm
          · exact h47b1 hm
          · omega
          · exact hm
        · have hsplit2 : splitparams (A ++ b1) = (A ++ b1, []) := by
            simp only [splitparams]
            have hc47 : (A ++ b1).contains 47 = true := by
              rw [contains_true_iff, hA2]
              simp
            rw [if_pos hc47]
            have hals : afterLastSlash (A ++ b1) = b1 := by
              rw [hA2, List.append_assoc]
              have : ([47] ++ b1) = 47 :: b1 := rfl
              rw [this]
              exact afterLastSlash_append h47b1
            rw [hals, splitOnce_of_not_mem h59b1]
          exact hsplit2
  · rw [if_neg h47] at h
    cases hsp : splitOnce 59 x with
    | none =>
      rw [hsp] at h
      have h2 : (x, ([] : PyStr)) = (p, q) := h
      injection h2 with h2a h2b
      refine ⟨Or.inl ⟨h2b.symm, h2a.symm⟩, fun _ => Or.inl ?_⟩
      rw [← h2a]
      have := splitOnce_none hsp
      rw [Bool.eq_false_iff]
      intro hc
      exact this (contains_true_iff.mp hc)
    | some pq =>
      obtain ⟨p1, q1⟩ := pq
      rw [hsp] at h
      have h2 : (p1, q1) = (p, q) := h
      injection h2 with h2a h2b
      refine ⟨Or.inr ?_, fun _ => Or.inl ?_⟩
      · rw [← h2a, ← h2b]
        exact (splitOnce_sound hsp).1
      · rw [← h2a]
        have h59 := (splitOnce_sound hsp).2
        rw [Bool.eq_false_iff]
        intro hc
        exact h59 (contains_true_iff.mp hc)

theorem urlparse_ok {u : PyStr} {cu : UrlParse} (h : urlparse u = Except.ok cu) :
    ∃ s : UrlSplit, urlsplit u = Except.ok s ∧ cu.scheme = s.scheme ∧
      cu.netloc = s.netloc ∧ cu.query = s.query ∧ cu.fragment = s.fragment ∧
      ∀ p2, (if cu.params ≠ [] then cu.path ++ 59 :: cu.params else cu.path) = p2 →
        p2 <+: s.path ∧
        (if s.scheme ∈ usesParams ∧ p2.contains 59 = true then splitparams p2
         else (p2, [])) = (cu.path, cu.params) := by
  unfold urlparse at h
  cases hs : urlsplit u with
  | error e => rw [hs] at h; cases h
  | ok s =>
    rw [hs] at h
    have h2 : Except.ok (⟨s.scheme, s.netloc,
        (if s.scheme ∈ usesParams ∧ s.path.contains 59 = true then splitparams s.path
         else (s.path, [])).1,
        (if s.scheme ∈ usesParams ∧ s.path.contains 59 = true then splitparams s.path
         else (s.path, [])).2, s.query, s.fragment⟩ : UrlParse) = Except.ok cu := h
    rw [Except.ok.injEq] at h2
    subst h2
    refine ⟨s, rfl, rfl, rfl, rfl, rfl, ?_⟩
    dsimp only
    by_cases hcond : s.scheme ∈ usesParams ∧ s.path.contains 59 = true
    · cases hsp : splitparams s.path with
      | mk p q =>
        rw [if_pos hcond]
        dsimp only
        obtain ⟨hdec, hqimp⟩ := splitparams_spec hsp
        intro p2 hp2
        rcases hdec with ⟨hq0, hp0⟩ | hx
        · subst hq0
          have hp2e : p2 = p := by
            rw [← hp2]
            simp
          subst hp2e
          subst hp0
          exact ⟨List.prefix_refl _, by rw [if_pos hcond, hsp]⟩
        · by_cases hq0 : q = []
          · subst hq0
            have hp2e : p2 = p := by
              rw [← hp2]
              simp
            subst hp2e
            constructor
            · exact ⟨[59], hx.symm⟩
            · rcases hqimp rfl with hc | hc
              · rw [if_neg]
                rintro ⟨_, hcc⟩
                rw [hc] at hcc
                cases hcc
              · by_cases hcond2 : s.scheme ∈ usesParams ∧ p2.contains 59 = true
                · rw [if_pos hcond2, hc]
                · rw [if_neg hcond2]
          · rw [if_pos hq0] at hp2
            have hp2e : p2 = s.path := by rw [← hp2, ← hx]
            subst hp2e
            rw [if_pos hcond, hsp]
            exact ⟨List.prefix_refl _, rfl⟩
    · rw [if_neg hcond]
      dsimp only
      intro p2 hp2
      have hp2e : p2 = s.path := by
        rw [← hp2]
        simp
      subst hp2e
      exact ⟨List.prefix_refl _, by rw [if_neg hcond]⟩

theorem dictSet_ne_nil (d : List (PyStr × PyStr)) (k v : PyStr) :
    dictSet d k v ≠ [] := by
  unfold dictSet
  by_cases ha : d.any (fun p => decide (p.1 = k)) = true
  · rw [if_pos ha]
    intro h0
    rw [List.map_eq_nil_iff] at h0
    subst h0
    simp at ha
  · rw [if_neg ha]
    simp

theorem keys_map_set (d : List (PyStr × PyStr)) (k v : PyStr) :
    (d.map (fun p => if p.1 = k then (k, v) else p)).map Prod.fst = d.map Prod.fst := by
  rw [List.map_map]
  apply List.map_congr_left
  intro p _
  simp only [Function.comp_apply]
  by_cases h : p.1 = k
  · rw [if_pos h]
    exact h.symm
  · rw [if_neg h]

theorem dictSet_nodup {d : List (PyStr × PyStr)} {k v : PyStr}
    (h : (d.map Prod.fst).Nodup) : ((dictSet d k v).map Prod.fst).Nodup := by
  unfold dictSet
  by_cases ha : d.any (fun p => decide (p.1 = k)) = true
  · rw [if_pos ha, keys_map_set]
    exact h
  · rw [if_neg ha, List.map_append]
    rw [List.nodup_append]
    refine ⟨h, by simp, ?_⟩
    intro a ha1 ha2
    simp only [List.map_cons, List.map_nil, List.mem_singleton] at ha2
    subst ha2
    rw [List.mem_map] at ha1
    obtain ⟨p, hp, hpk⟩ := ha1
    exact ha (List.any_eq_true.mpr ⟨p, hp, by simp [hpk]⟩)

theorem dictOfPairs_nodup (ps : List (PyStr × PyStr)) :
    ((dictOfPairs ps).map Prod.fst).Nodup := by
  unfold dictOfPairs
  suffices hgen : ∀ acc : List (PyStr × PyStr), (acc.map Prod.fst).Nodup →
      ((ps.foldl (fun d p => dictSet d p.1 p.2) acc).map Prod.fst).Nodup by
    exact hgen [] (by simp)
  induction ps with
  | nil =>
    intro acc h
    simpa using h
  | cons p t ih =>
    intro acc h
    rw [List.foldl_cons]
    exact ih _ (dictSet_nodup h)

theorem foldl_dictSet_append (ps : List (PyStr × PyStr)) :
    ∀ acc : List (PyStr × PyStr), ((acc ++ ps).map Prod.fst).Nodup →
      ps.foldl (fun d p => dictSet d p.1 p.2) acc = acc ++ ps := by
  induction ps with
  | nil =>
    intro acc _
    simp
  | cons q t ih =>
    intro acc h
    rw [List.foldl_cons]
    have hq : ¬(acc.any (fun p => decide (p.1 = q.1)) = true) := by
      intro hany
      rw [List.any_eq_true] at hany
      obtain ⟨p, hp, hpk⟩ := hany
      simp only [decide_eq_true_eq] at hpk
      rw [List.map_append, List.nodup_append] at h
      exact h.2.2 (List.mem_map.mpr ⟨p, hp, rfl⟩)
        (by rw [hpk]; simp)
    have hset : dictSet acc q.1 q.2 = acc ++ [q] := by
      unfold dictSet
      rw [if_neg hq, Prod.mk.eta]
    rw [hset, ih (acc ++ [q]) (by rw [← List.append_cons]; exact h),
        ← List.append_cons]

theorem dictOfPairs_eq_self {ps : List (PyStr × PyStr)}
    (h : (ps.map Prod.fst).Nodup) : dictOfPairs ps = ps := by
  unfold dictOfPairs
  have := foldl_dictSet_append ps [] (by simpa using h)
  simpa using this

theorem dictSet_idem (d : List (PyStr × PyStr)) (k v : PyStr) :
    dictSet (dictSet d k v) k v = dictSet d k v := by
  unfold dictSet
  by_cases ha : d.any (fun p => decide (p.1 = k)) = true
  · rw [if_pos ha]
    have hany2 : (d.map (fun p => if p.1 = k then (k, v) else p)).any
        (fun p => decide (p.1 = k)) = true := by
      rw [List.any_eq_true] at ha ⊢
      obtain ⟨p, hp, hpk⟩ := ha
      simp only [decide_eq_true_eq] at hpk
      refine ⟨(k, v), List.mem_map.mpr ⟨p, hp, by rw [if_pos hpk]⟩, by simp⟩
    rw [if_pos hany2, List.map_map]
    apply List.map_congr_left
    intro p _
    simp only [Function.comp_apply]
    by_cases hp : p.1 = k
    · rw [if_pos hp, if_pos rfl]
    · rw [if_neg hp, if_neg hp]
  · rw [if_neg ha]
    have hany2 : (d ++ [(k, v)]).any (fun p => decide (p.1 = k)) = true := by
      rw [List.any_eq_true]
      exact ⟨(k, v), by simp, by simp⟩
    rw [if_pos hany2, List.map_append]
    have hmap : d.map (fun p => if p.1 = k then (k, v) else p) = d := by
      refine (List.map_congr_left ?_).trans (List.map_id d)
      intro p hp
      rw [if_neg (fun hpk => ha (List.any_eq_true.mpr ⟨p, hp, by simp [hpk]⟩))]
      rfl
    rw [hmap]
    simp

theorem filter_key_nodup {d : List (PyStr × PyStr)} {k : PyStr}
    (h : (d.map Prod.fst).Nodup) (ha : d.any (fun p => decide (p.1 = k)) = true) :
    ∃ w, d.filter (fun p => decide (p.1 = k)) = [(k, w)] := by
  induction d with
  | nil => simp at ha
  | cons p t ih =>
    rw [List.map_cons, List.nodup_cons] at h
    by_cases hp : p.1 = k
    · refine ⟨p.2, ?_⟩
      rw [List.filter_cons_of_pos (by simp [hp])]
      have ht : t.filter (fun p => decide (p.1 = k)) = [] := by
        rw [List.filter_eq_nil_iff]
        intro q hq
        simp only [decide_eq_true_eq]
        intro hqk
        exact h.1 (by rw [hp, ← hqk]; exact List.mem_map.mpr ⟨q, hq, rfl⟩)
      rw [ht, ← hp, Prod.mk.eta]
    · rw [List.filter_cons_of_neg (by simp [hp])]
      apply ih h.2
      rw [List.any_cons] at ha
      rcases Bool.or_eq_true_iff.mp ha with h0 | h0
      · exact absurd (by simpa using h0) hp
      · exact h0

theorem dictSet_filter_key {d : List (PyStr × PyStr)} {k v : PyStr}
    (h : (d.map Prod.fst).Nodup) :
    (dictSet d k v).filter (fun p => decide (p.1 = k)) = [(k, v)] := by
  unfold dictSet
  by_cases ha : d.any (fun p => decide (p.1 = k)) = true
  · rw [if_pos ha, List.filter_map]
    have hcongr : d.filter
        ((fun p => decide (p.1 = k)) ∘ (fun p => if p.1 = k then (k, v) else p)) =
        d.filter (fun p => decide (p.1 = k)) := by
      apply List.filter_congr
      intro p _
      simp only [Function.comp_apply]
      by_cases hp : p.1 = k
      · rw [if_pos hp]
        simp [hp]
      · rw [if_neg hp]
    rw [hcongr]
    obtain ⟨w, hw⟩ := filter_key_nodup h ha
    rw [hw]
    simp
  · rw [if_neg ha, List.filter_append]
    have hd : d.filter (fun p => decide (p.1 = k)) = [] := by
      rw [List.filter_eq_nil_iff]
      intro p hp
      simp only [decide_eq_true_eq]
      intro hpk
      exact ha (List.any_eq_true.mpr ⟨p, hp, by simp [hpk]⟩)
    rw [hd]
    simp

theorem dictSet_filter_ne (d : List (PyStr × PyStr)) (k v : PyStr) :
    (dictSet d k v).filter (fun p => !decide (p.1 = k)) =
      d.filter (fun p => !decide (p.1 = k)) := by
  unfold dictSet
  by_cases ha : d.any (fun p => decide (p.1 = k)) = true
  · rw [if_pos ha, List.filter_map]
    have hcongr : d.filter
        ((fun p => !decide (p.1 = k)) ∘ (fun p => if p.1 = k then (k, v) else p)) =
        d.filter (fun p => !decide (p.1 = k)) := by
      apply List.filter_congr
      intro p _
      simp only [Function.comp_apply]
      by_cases hp : p.1 = k
      · rw [if_pos hp]
        simp [hp]
      · rw [if_neg hp]
    rw [hcongr]
    refine (List.map_congr_left ?_).trans (List.map_id _)
    intro p hp
    rw [List.mem_filter] at hp
    rw [if_neg (fun hpk => by
      have := hp.2
      simp [hpk] at this)]
    rfl
  · rw [if_neg ha, List.filter_append]
    simp

theorem urlencodeParts_chars {pairs : List (PyStr × PyStr)} {parts : List PyStr}
    (h : urlencodeParts pairs = Option.some parts) :
    ∀ p ∈ parts, ∀ x ∈ p, alwaysSafe x = true ∨ x = 43 ∨ x = 37 ∨ x = 61 := by
  induction pairs generalizing parts with
  | nil =>
    unfold urlencodeParts at h
    cases h
    intro p hp
    cases hp
  | cons kv rest ih =>
    obtain ⟨k, v⟩ := kv
    unfold urlencodeParts at h
    cases hk : pyQuotePlus k with
    | none => rw [hk] at h; cases h
    | some ke =>
      cases hv : pyQuotePlus v with
      | none => rw [hk, hv] at h; cases h
      | some ve =>
        cases hr : urlencodeParts rest with
        | none => rw [hk, hv, hr] at h; cases h
        | some rs =>
          rw [hk, hv, hr] at h
          cases h
          intro p hp
          rcases List.mem_cons.mp hp with hp0 | hp0
          · subst hp0
            intro x hx
            rcases List.mem_append.mp hx with h1 | h1
            · rcases quotePlus_mem hk h1 with h2 | h2 | h2
              · exact Or.inl h2
              · exact Or.inr (Or.inl h2)
              · exact Or.inr (Or.inr (Or.inl h2))
            · rcases List.mem_cons.mp h1 with h2 | h2
              · exact Or.inr (Or.inr (Or.inr h2))
              · rcases quotePlus_mem hv h2 with h3 | h3 | h3
                · exact Or.inl h3
                · exact Or.inr (Or.inl h3)
                · exact Or.inr (Or.inr (Or.inl h3))
          · exact ih hr p hp0

theorem mem_intercalate {c : Nat} {parts : List PyStr} {x : Nat}
    (h : x ∈ List.intercalate [c] parts) : x = c ∨ ∃ p ∈ parts, x ∈ p := by
  induction parts with
  | nil => simp [List.intercalate] at h
  | cons a t ih =>
    cases t with
    | nil =>
      rw [intercalate_single] at h
      exact Or.inr ⟨a, by simp, h⟩
    | cons b t2 =>
      rw [intercalate_cons₂] at h
      rcases List.mem_append.mp h with h1 | h1
      · rcases List.mem_append.mp h1 with h2 | h2
        · exact Or.inr ⟨a, by simp, h2⟩
        · left
          simpa using h2
      · rcases ih h1 with h2 | ⟨p, hp, hx⟩
        · exact Or.inl h2
        · exact Or.inr ⟨p, List.mem_cons_of_mem a hp, hx⟩

theorem alwaysSafe_ge45 {x : Nat} (h : alwaysSafe x = true) : 45 ≤ x := by
  simp only [alwaysSafe, isAsciiAlpha, Bool.or_eq_true, decide_eq_true_eq] at h
  omega

theorem urlencode_chars {pairs : List (PyStr × PyStr)} {nq : PyStr} {x : Nat}
    (h : urlencode pairs = Option.some nq) (hx : x ∈ nq) : 37 ≤ x := by
  unfold urlencode at h
  cases hp : urlencodeParts pairs with
  | none => rw [hp] at h; cases h
  | some parts =>
    rw [hp] at h
    have hnq : nq = List.intercalate [38] parts := by simpa using h.symm
    subst hnq
    rcases mem_intercalate hx with h1 | ⟨p, hpp, hxp⟩
    · omega
    · rcases urlencodeParts_chars hp p hpp x hxp with h1 | h1 | h1 | h1
      · exact le_trans (by omega) (alwaysSafe_ge45 h1)
      · omega
      · omega
      · omega

theorem with_affiliate_tag_eq {url tag : PyStr} {cu : UrlParse}
    (hp : urlparse url = Except.ok cu) :
    with_affiliate_tag url tag =
      match urlencode (dictSet (dictOfPairs (parse_qsl cu.query)) (pyLit "tag") tag) with
      | Option.none => Except.error (pyLit "UnicodeEncodeError")
      | Option.some nq =>
        Except.ok (urlunparse cu.scheme cu.netloc cu.path cu.params nq cu.fragment) := by
  unfold with_affiliate_tag
  rw [hp]

/-- C2 counterexample: `with_affiliate_tag` is not idempotent on every URL
string.  For `url = "////[x"` and `tag = "t"` the first application succeeds
and returns `"//[x?tag=t"`, but applying the function to that result raises
`ValueError("Invalid IPv6 URL")` inside `urlsplit` (the re-parse reads `[x`
as an IPv6 authority with an unmatched bracket), so the double application
is an exception, not the fixed point the claim asserts. -/
theorem C2_counterexample :
    with_affiliate_tag (pyLit "////[x") (pyLit "t") =
      Except.ok (pyLit "//[x?tag=t") ∧
    with_affiliate_tag (pyLit "//[x?tag=t") (pyLit "t") =
      Except.error (pyLit "Invalid IPv6 URL") := by
  constructor
  · decide
  · decide

set_option maxRecDepth 40000 in
/-- C2 (amended): whenever `with_affiliate_tag url tag` returns a result
(no exception), the input parsed as `cu`, the result is exactly the
re-assembly of `cu`'s scheme, authority, path and params with the re-encoded
query and `cu`'s fragment; in the result's query the key `tag` maps to `tag`
exactly once, every parameter with a key other than `tag` is preserved with
its last value and blank values kept, and when the parsed authority is
non-empty a second application returns the same string unchanged
(idempotence) — idempotence can fail when the authority is empty, see the
counterexample. -/
theorem C2_affiliate_tag {u t r : PyStr} (h : with_affiliate_tag u t = Except.ok r) :
    ∃ cu : UrlParse, ∃ nq : PyStr,
      urlparse u = Except.ok cu ∧
      urlencode (dictSet (dictOfPairs (parse_qsl cu.query)) (pyLit "tag") t) =
        Option.some nq ∧
      r = urlunparse cu.scheme cu.netloc cu.path cu.params nq cu.fragment ∧
      (parse_qsl nq).filter (fun p => decide (p.1 = pyLit "tag")) = [(pyLit "tag", t)] ∧
      (parse_qsl nq).filter (fun p => !decide (p.1 = pyLit "tag")) =
        (dictOfPairs (parse_qsl cu.query)).filter
          (fun p => !decide (p.1 = pyLit "tag")) ∧
      (cu.netloc ≠ [] → with_affiliate_tag r t = Except.ok r) := by
  cases hpu : urlparse u with
  | error e =>
    unfold with_affiliate_tag at h
    rw [hpu] at h
    cases h
  | ok cu =>
    rw [with_affiliate_tag_eq hpu] at h
    cases henc : urlencode (dictSet (dictOfPairs (parse_qsl cu.query)) (pyLit "tag") t) with
    | none =>
      rw [henc] at h
      cases h
    | some nq =>
      rw [henc] at h
      have h2 : Except.ok (urlunparse cu.scheme cu.netloc cu.path cu.params nq
          cu.fragment) = Except.ok r := h
      rw [Except.ok.injEq] at h2
      have hq' : parse_qsl nq =
          dictSet (dictOfPairs (parse_qsl cu.query)) (pyLit "tag") t :=
        parse_qsl_urlencode (dictSet_ne_nil _ _ _) henc
      refine ⟨cu, nq, rfl, henc, h2.symm, ?_, ?_, ?_⟩
      · rw [hq']
        exact dictSet_filter_key (dictOfPairs_nodup _)
      · rw [hq']
        exact dictSet_filter_ne _ _ _
      · intro hnl
        obtain ⟨s0, hsplit, hf1, hf2, hf3, hf4, hpp⟩ := urlparse_ok hpu
        obtain ⟨hpfx, hstab⟩ :=
          hpp (if cu.params ≠ [] then cu.path ++ 59 :: cu.params else cu.path) rfl
        obtain ⟨hsch, hnetK, hnetC, hbr, ⟨hp63, hp35⟩, hpc, hfc, hph⟩ :=
          urlsplit_ok_props hsplit
        have hq35 : (35 : Nat) ∉ nq := by
          intro hm
          have := urlencode_chars henc hm
          omega
        have hqc : ∀ c ∈ nq, c ≠ 9 ∧ c ≠ 10 ∧ c ≠ 13 := by
          intro c hc
          have := urlencode_chars henc hc
          omega
        have hqne : nq ≠ [] := by
          intro h0
          rw [h0] at hq'
          exact dictSet_ne_nil _ _ _ hq'.symm
        set p2 := (if cu.params ≠ [] then cu.path ++ 59 :: cu.params else cu.path)
          with hp2def
        have hsub := hpfx.subset
        have hp2_63 : (63 : Nat) ∉ p2 := fun hm => hp63 (hsub hm)
        have hp2_35 : (35 : Nat) ∉ p2 := fun hm => hp35 (hsub hm)
        have hp2c : ∀ c ∈ p2, c ≠ 9 ∧ c ≠ 10 ∧ c ≠ 13 := fun c hc => hpc c (hsub hc)
        have hnl0 : s0.netloc ≠ [] := by
          rw [← hf2]
          exact hnl
        have hp2h : p2 = [] ∨ p2.take 1 = [47] := by
          cases hp2e : p2 with
          | nil => exact Or.inl rfl
          | cons a t2 =>
            right
            obtain ⟨tl, hpfx2⟩ := hpfx
            rw [hp2e] at hpfx2
            rcases hph hnl0 with h0 | h0
            · rw [← hpfx2] at h0
              cases h0
            · rw [← hpfx2] at h0
              have ha47 : a = 47 := by simpa using h0
              rw [ha47]
              rfl
        have hrdef : r = urlunsplit s0.scheme s0.netloc p2 nq s0.fragment := by
          rw [← h2, hf1, hf2, hf4]
          rfl
        have hsplit_r : urlsplit r =
            Except.ok ⟨s0.scheme, s0.netloc, p2, nq, s0.fragment⟩ := by
          rw [hrdef]
          exact urlsplit_rebuild_core hsch hnl0 hnetK hnetC hbr hp2_63 hp2_35
            hp2c hfc hp2h hq35 hqc hqne
        have hpr : urlparse r =
            Except.ok ⟨cu.scheme, cu.netloc, cu.path, cu.params, nq, cu.fragment⟩ := by
          unfold urlparse
          rw [hsplit_r]
          show Except.ok (⟨s0.scheme, s0.netloc,
            (if s0.scheme ∈ usesParams ∧ p2.contains 59 = true then splitparams p2
             else (p2, [])).1,
            (if s0.scheme ∈ usesParams ∧ p2.contains 59 = true then splitparams p2
             else (p2, [])).2, nq, s0.fragment⟩ : UrlParse) =
            Except.ok ⟨cu.scheme, cu.netloc, cu.path, cu.params, nq, cu.fragment⟩
          rw [hstab]
          rw [← hf1, ← hf2, ← hf4]
        have h2nd := @with_affiliate_tag_eq r t _ hpr
        dsimp only at h2nd
        rw [h2nd, hq', dictOfPairs_eq_self (dictSet_nodup (dictOfPairs_nodup _)),
            dictSet_idem, henc]
        show Except.ok (urlunparse cu.scheme cu.netloc cu.path cu.params nq
          cu.fragment) = Except.ok r
        rw [h2]

set_option maxRecDepth 40000 in
/-- C2 witness: a concrete successful run.  For the Amazon product URL
`https://www.amazon.com/dp/B001?x=1&tag=old#f` and partner tag `tag123`,
`with_affiliate_tag` returns
`https://www.amazon.com/dp/B001?x=1&tag=tag123#f`, and the amended theorem
applies with its hypothesis discharged by computation. -/
theorem C2_affiliate_tag_witness :
    with_affiliate_tag (pyLit "https://www.amazon.com/dp/B001?x=1&tag=old#f")
        (pyLit "tag123") =
      Except.ok (pyLit "https://www.amazon.com/dp/B001?x=1&tag=tag123#f") ∧
    (∃ cu : UrlParse, ∃ nq : PyStr,
      urlparse (pyLit "https://www.amazon.com/dp/B001?x=1&tag=old#f") =
        Except.ok cu ∧
      urlencode (dictSet (dictOfPairs (parse_qsl cu.query)) (pyLit "tag")
          (pyLit "tag123")) = Option.some nq ∧
      pyLit "https://www.amazon.com/dp/B001?x=1&tag=tag123#f" =
        urlunparse cu.scheme cu.netloc cu.path cu.params nq cu.fragment ∧
      (parse_qsl nq).filter (fun p => decide (p.1 = pyLit "tag")) =
        [(pyLit "tag", pyLit "tag123")] ∧
      (parse_qsl nq).filter (fun p => !decide (p.1 = pyLit "tag")) =
        (dictOfPairs (parse_qsl cu.query)).filter
          (fun p => !decide (p.1 = pyLit "tag")) ∧
      (cu.netloc ≠ [] →
        with_affiliate_tag (pyLit "https://www.amazon.com/dp/B001?x=1&tag=tag123#f")
          (pyLit "tag123") =
        Except.ok (pyLit "https://www.amazon.com/dp/B001?x=1&tag=tag123#f"))) :=
  ⟨by decide, C2_affiliate_tag (by decide)⟩

end BuildPage
